import Mathlib

/-!
Verification of the Kiwi lexer (src/kiwi/lexer/{tokens,lexer}.py).

The source text is modelled as a `List Char` and absolute positions as `Nat`
indices.  Python `re` patterns are modelled by a small regex AST together with
a backtracking matcher `Regex.ends` that returns the list of candidate match
end-positions in the exact depth-first order that a leftmost, greedy/lazy
backtracking engine (such as CPython's `re`) explores them; the engine's
chosen match is the head of that list.  Word characters (`\b`, `\w`) are
modelled over ASCII.
-/

namespace Kiwi

/-- ASCII word character, as used by the `\b` assertions of the keyword
patterns (`[a-zA-Z0-9_]`). -/
def isWordChar (c : Char) : Bool :=
  ('a' ≤ c && c ≤ 'z') || ('A' ≤ c && c ≤ 'Z') || ('0' ≤ c && c ≤ '9') || c = '_'

/-- ASCII decimal digit, the model of the pattern class `\d`. -/
def isDigitChar (c : Char) : Bool :=
  '0' ≤ c && c ≤ '9'

/-- Regex abstract syntax.  `star greedy r` covers both `r*` (greedy) and
`r*?` (lazy); `cls p` is a character class; `wordB` is the `\b` assertion and
`eos` the `$` assertion (end of string, or just before a final newline). -/
inductive Regex : Type where
  | eps : Regex
  | char (c : Char) : Regex
  | cls (p : Char → Bool) : Regex
  | seq (a b : Regex) : Regex
  | alt (a b : Regex) : Regex
  | star (greedy : Bool) (r : Regex) : Regex
  | wordB : Regex
  | eos : Regex

namespace Regex

/-- Whether position `i` of `s` is a word boundary (`\b`): exactly one of the
neighbouring characters is a word character (out of range counts as
non-word). -/
def atWordBoundary (s : List Char) (i : Nat) : Bool :=
  let before := match s.get? (i - 1) with
    | some c => if i = 0 then false else isWordChar c
    | none => false
  let after := match s.get? i with
    | some c => isWordChar c
    | none => false
  before != after

/-- Whether `$` (without MULTILINE) matches at position `i` of `s`: at the end
of the string, or just before a newline that is the last character. -/
def atEos (s : List Char) (i : Nat) : Bool :=
  i = s.length || (i + 1 = s.length && s.get? i = some '\n')

/-- The continuation of a repetition `r*` (greedy) or `r*?` (lazy): given
the body matcher `f` (candidate ends of one repetition of the body), produce
the candidate end positions of the whole repetition starting at `i`, in
backtracking order.  `gas` bounds the number of repetitions; since each
repetition consumes at least one character (the `i < j` filter, Python's
refusal to repeat an empty match) and never passes `len`, any `gas` with
`len + 1 - i ≤ gas` yields the full list. -/
def starCont (f : Nat → List Nat) (len : Nat) (greedy : Bool) :
    Nat → Nat → List Nat
  | 0, i => [i]
  | gas + 1, i =>
      let cont := ((f i).filter
          (fun j => decide (i < j) && decide (j ≤ len))).flatMap
        (fun j => starCont f len greedy gas j)
      if greedy then cont ++ [i] else i :: cont

/-- All candidate end positions of a match of `r` in `s` starting at `i`, in
backtracking depth-first order: alternation is left-first, a greedy star tries
longer repetitions first, a lazy star shorter first, and a repetition never
repeats an empty match.  The engine's chosen match end is the head. -/
def ends : Regex → List Char → Nat → List Nat
  | .eps, _, i => [i]
  | .char c, s, i =>
      if h : i < s.length then (if s.get ⟨i, h⟩ = c then [i + 1] else []) else []
  | .cls p, s, i =>
      if h : i < s.length then (if p (s.get ⟨i, h⟩) then [i + 1] else []) else []
  | .seq a b, s, i => (ends a s i).flatMap (fun j => ends b s j)
  | .alt a b, s, i => ends a s i ++ ends b s i
  | .star greedy r', s, i =>
      starCont (fun j => ends r' s j) s.length greedy (s.length + 1 - i) i
  | .wordB, s, i => if atWordBoundary s i then [i] else []
  | .eos, s, i => if atEos s i then [i] else []

theorem mem_starCont_zero (f : Nat → List Nat) (len : Nat) (g : Bool)
    (i j : Nat) : j ∈ starCont f len g 0 i ↔ j = i := by
  rw [starCont]
  simp

theorem mem_starCont_succ (f : Nat → List Nat) (len : Nat) (g : Bool)
    (gas i j : Nat) :
    j ∈ starCont f len g (gas + 1) i ↔
      j = i ∨ ∃ j0 ∈ (f i).filter
        (fun j0 => decide (i < j0) && decide (j0 ≤ len)),
        j ∈ starCont f len g gas j0 := by
  rw [starCont]
  cases g
  · simp only [Bool.false_eq_true, if_false, List.mem_cons, List.mem_flatMap]
  · simp only [if_true, List.mem_append, List.mem_flatMap, List.mem_singleton]
    constructor
    · intro h
      rcases h with h | h
      · exact Or.inr h
      · exact Or.inl h
    · intro h
      rcases h with h | h
      · exact Or.inr h
      · exact Or.inl h

theorem starCont_ge (f : Nat → List Nat) (len : Nat) (g : Bool) :
    ∀ gas i j, j ∈ starCont f len g gas i → i ≤ j := by
  intro gas
  induction gas with
  | zero =>
    intro i j hj
    rw [mem_starCont_zero] at hj
    omega
  | succ gas ih =>
    intro i j hj
    rcases (mem_starCont_succ f len g gas i j).mp hj with h | ⟨j0, hj0, hj⟩
    · omega
    · have h1 := List.of_mem_filter hj0
      simp only [Bool.and_eq_true, decide_eq_true_eq] at h1
      have h2 := ih j0 j hj
      omega

theorem starCont_le (f : Nat → List Nat) (len : Nat) (g : Bool) :
    ∀ gas i j, j ∈ starCont f len g gas i → j ≤ max i len := by
  intro gas
  induction gas with
  | zero =>
    intro i j hj
    rw [mem_starCont_zero] at hj
    omega
  | succ gas ih =>
    intro i j hj
    rcases (mem_starCont_succ f len g gas i j).mp hj with h | ⟨j0, hj0, hj⟩
    · omega
    · have h1 := List.of_mem_filter hj0
      simp only [Bool.and_eq_true, decide_eq_true_eq] at h1
      have h2 := ih j0 j hj
      omega

/-- Past the end of the string a repetition can only match emptily. -/
theorem starCont_high (f : Nat → List Nat) (len : Nat) (g : Bool)
    (hf : ∀ x, ∀ y ∈ f x, x ≤ y) :
    ∀ gas i, len < i → starCont f len g gas i = [i] := by
  intro gas
  cases gas with
  | zero =>
    intro i _
    rw [starCont]
  | succ gas =>
    intro i hi
    rw [starCont]
    have hfil : (f i).filter (fun j => decide (i < j) && decide (j ≤ len)) = [] := by
      rw [List.filter_eq_nil_iff]
      intro a ha
      have := hf i a ha
      simp only [Bool.and_eq_true, decide_eq_true_eq, not_and]
      omega
    rw [hfil]
    cases g <;> rfl

/-- The repetition stabilizes once the gas covers the remaining string. -/
theorem starCont_stable (f : Nat → List Nat) (len : Nat) (g : Bool)
    (hf : ∀ x, ∀ y ∈ f x, x ≤ y) :
    ∀ gas1 gas2 i, len + 1 - i ≤ gas1 → len + 1 - i ≤ gas2 →
      starCont f len g gas1 i = starCont f len g gas2 i := by
  intro gas1
  induction gas1 with
  | zero =>
    intro gas2 i h1 h2
    have hi : len < i := by omega
    rw [starCont_high f len g hf 0 i hi, starCont_high f len g hf gas2 i hi]
  | succ gas1 ih =>
    intro gas2 i h1 h2
    rcases Nat.lt_or_ge len i with hi | hi
    · rw [starCont_high f len g hf _ i hi, starCont_high f len g hf gas2 i hi]
    · have hg2 : ∃ g2, gas2 = g2 + 1 := by
        rcases gas2 with - | g2
        · omega
        · exact ⟨g2, rfl⟩
      obtain ⟨g2, rfl⟩ := hg2
      rw [starCont, starCont]
      have hcongr : ∀ j0 ∈ (f i).filter
          (fun j => decide (i < j) && decide (j ≤ len)),
          starCont f len g gas1 j0 = starCont f len g g2 j0 := by
        intro j0 hj0
        have h3 := List.of_mem_filter hj0
        simp only [Bool.and_eq_true, decide_eq_true_eq] at h3
        exact ih g2 j0 (by omega) (by omega)
      have hfl : ((f i).filter
            (fun j => decide (i < j) && decide (j ≤ len))).flatMap
            (fun j => starCont f len g gas1 j) =
          ((f i).filter
            (fun j => decide (i < j) && decide (j ≤ len))).flatMap
            (fun j => starCont f len g g2 j) := by
        rw [List.flatMap]
        rw [List.flatMap]
        rw [List.map_congr_left hcongr]
      rw [hfl]

/-- The empty repetition is always a candidate. -/
theorem starCont_self (f : Nat → List Nat) (len : Nat) (g : Bool)
    (gas i : Nat) : i ∈ starCont f len g gas i := by
  cases gas with
  | zero =>
    rw [mem_starCont_zero]
  | succ gas =>
    rw [mem_starCont_succ]
    exact Or.inl rfl

/-- Every candidate match end lies at or after the start position. -/
theorem ends_ge (r : Regex) (s : List Char) (i : Nat) : ∀ j ∈ ends r s i, i ≤ j := by
  induction r generalizing i with
  | eps =>
    intro j hj
    rw [ends] at hj
    simp only [List.mem_singleton] at hj
    omega
  | char c =>
    intro j hj
    rw [ends] at hj
    split at hj <;> simp_all
  | cls p =>
    intro j hj
    rw [ends] at hj
    split at hj <;> simp_all
  | seq a b iha ihb =>
    intro j hj
    rw [ends] at hj
    obtain ⟨m, hm, hjm⟩ := List.mem_flatMap.mp hj
    exact le_trans (iha i m hm) (ihb m j hjm)
  | alt a b iha ihb =>
    intro j hj
    rw [ends] at hj
    rcases List.mem_append.mp hj with h | h
    exacts [iha i j h, ihb i j h]
  | star g r' ih =>
    intro j hj
    rw [ends] at hj
    exact starCont_ge _ _ _ _ i j hj
  | wordB =>
    intro j hj
    rw [ends] at hj
    split at hj <;> simp_all
  | eos =>
    intro j hj
    rw [ends] at hj
    split at hj <;> simp_all

/-- Candidate match ends never run past the end of the string (nor before the
start position, which is relevant when matching starts past the end). -/
theorem ends_le (r : Regex) (s : List Char) (i : Nat) :
    ∀ j ∈ ends r s i, j ≤ max i s.length := by
  induction r generalizing i with
  | eps =>
    intro j hj
    rw [ends] at hj
    simp only [List.mem_singleton] at hj
    omega
  | char c =>
    intro j hj
    rw [ends] at hj
    split at hj <;> simp_all
    omega
  | cls p =>
    intro j hj
    rw [ends] at hj
    split at hj <;> simp_all
    omega
  | seq a b iha ihb =>
    intro j hj
    rw [ends] at hj
    obtain ⟨m, hm, hjm⟩ := List.mem_flatMap.mp hj
    have h1 := iha i m hm
    have h2 := ihb m j hjm
    omega
  | alt a b iha ihb =>
    intro j hj
    rw [ends] at hj
    rcases List.mem_append.mp hj with h | h
    exacts [iha i j h, ihb i j h]
  | star g r' ih =>
    intro j hj
    rw [ends] at hj
    exact starCont_le _ _ _ _ i j hj
  | wordB =>
    intro j hj
    rw [ends] at hj
    split at hj <;> simp_all
  | eos =>
    intro j hj
    rw [ends] at hj
    split at hj <;> simp_all


/-- Syntactic check that a regex can never match the empty word: `true` means
every successful match consumes at least one character. -/
def nonNullable : Regex → Bool
  | .eps => false
  | .char _ => true
  | .cls _ => true
  | .seq a b => nonNullable a || nonNullable b
  | .alt a b => nonNullable a && nonNullable b
  | .star _ _ => false
  | .wordB => false
  | .eos => false

/-- A non-nullable regex strictly advances the position on every candidate
match. -/
theorem ends_pos (r : Regex) (hr : nonNullable r = true) (s : List Char) (i : Nat) :
    ∀ j ∈ ends r s i, i < j := by
  induction r generalizing i with
  | eps => simp [nonNullable] at hr
  | char c =>
    intro j hj
    rw [ends] at hj
    split at hj <;> simp_all
  | cls p =>
    intro j hj
    rw [ends] at hj
    split at hj <;> simp_all
  | seq a b iha ihb =>
    intro j hj
    rw [ends] at hj
    obtain ⟨m, hm, hjm⟩ := List.mem_flatMap.mp hj
    rw [nonNullable, Bool.or_eq_true] at hr
    rcases hr with hr | hr
    · exact lt_of_lt_of_le (iha hr i m hm) (ends_ge b s m j hjm)
    · exact lt_of_le_of_lt (ends_ge a s i m hm) (ihb hr m j hjm)
  | alt a b iha ihb =>
    intro j hj
    rw [ends] at hj
    rw [nonNullable, Bool.and_eq_true] at hr
    rcases List.mem_append.mp hj with h | h
    exacts [iha hr.1 i j h, ihb hr.2 i j h]
  | star greedy r' ih => simp [nonNullable] at hr
  | wordB => simp [nonNullable] at hr
  | eos => simp [nonNullable] at hr

end Regex

/-- Python slice `s[i:j]` on a character list. -/
def listSub (s : List Char) (i j : Nat) : List Char :=
  (s.drop i).take (j - i)

/-- Splitting a slice at an intermediate position. -/
theorem listSub_append (s : List Char) (i m j : Nat) (him : i ≤ m) (hmj : m ≤ j) :
    listSub s i m ++ listSub s m j = listSub s i j := by
  unfold listSub
  have hj : j - i = (m - i) + (j - m) := by omega
  rw [hj, List.take_add]
  congr 2
  rw [List.drop_drop]
  congr 1
  omega

theorem listSub_self (s : List Char) (i : Nat) : listSub s i i = [] := by
  simp [listSub]

theorem listSub_length (s : List Char) (i j : Nat) (hij : i ≤ j) (hj : j ≤ s.length) :
    (listSub s i j).length = j - i := by
  simp [listSub]
  omega

theorem listSub_single (s : List Char) (i : Nat) (h : i < s.length) :
    listSub s i (i + 1) = [s.get ⟨i, h⟩] := by
  unfold listSub
  have h1 : i + 1 - i = 1 := by omega
  have h2 : s.drop i = s.get ⟨i, h⟩ :: s.drop (i + 1) := List.drop_eq_getElem_cons h
  rw [h1, h2]
  rfl

/-- The characters of a slice, looked up in the original list. -/
theorem listSub_get? (s : List Char) (i j k : Nat) (hk : k < j - i) :
    (listSub s i j).get? k = s.get? (i + k) := by
  unfold listSub
  rw [List.get?_eq_getElem?, List.get?_eq_getElem?]
  rw [List.getElem?_take_of_lt hk, List.getElem?_drop]

namespace Regex

/-- Syntactic check that a regex contains no context-sensitive assertion
(no `\b`, no `$`): its matches depend only on the matched span. -/
def contextFree : Regex → Bool
  | .eps => true
  | .char _ => true
  | .cls _ => true
  | .seq a b => contextFree a && contextFree b
  | .alt a b => contextFree a && contextFree b
  | .star _ r => contextFree r
  | .wordB => false
  | .eos => false

/-- Classical language semantics of the context-free regex fragment.
`Matches r u` holds when the whole word `u` belongs to the language of `r`.
The star rule mirrors the matcher's refusal to repeat an empty match. -/
inductive Matches : Regex → List Char → Prop where
  | eps : Matches .eps []
  | char (c : Char) : Matches (.char c) [c]
  | cls (p : Char → Bool) (c : Char) : p c = true → Matches (.cls p) [c]
  | seq (a b : Regex) (u v : List Char) :
      Matches a u → Matches b v → Matches (.seq a b) (u ++ v)
  | altL (a b : Regex) (u : List Char) : Matches a u → Matches (.alt a b) u
  | altR (a b : Regex) (u : List Char) : Matches b u → Matches (.alt a b) u
  | starNil (g : Bool) (r : Regex) : Matches (.star g r) []
  | starCons (g : Bool) (r : Regex) (u v : List Char) :
      Matches r u → u ≠ [] → Matches (.star g r) v → Matches (.star g r) (u ++ v)

/-- One repetition step at a time, a star match is a word of the star's
language. -/
theorem starCont_matches (s : List Char) (r' : Regex) (g : Bool)
    (hf : ∀ x, ∀ j ∈ ends r' s x, Matches r' (listSub s x j)) :
    ∀ gas i j, j ∈ starCont (fun x => ends r' s x) s.length g gas i →
      Matches (.star g r') (listSub s i j) := by
  intro gas
  induction gas with
  | zero =>
    intro i j hj
    rw [mem_starCont_zero] at hj
    subst hj
    rw [listSub_self]
    exact .starNil g r'
  | succ gas ih =>
    intro i j hj
    rcases (mem_starCont_succ _ _ _ _ _ _).mp hj with h | ⟨j0, hj0, hj⟩
    · subst h
      rw [listSub_self]
      exact .starNil g r'
    · have h1 := List.of_mem_filter hj0
      simp only [Bool.and_eq_true, decide_eq_true_eq] at h1
      have hmem := List.mem_of_mem_filter hj0
      have hu := hf i j0 hmem
      have hv := ih j0 j hj
      have hj0j := starCont_ge _ _ _ _ j0 j hj
      have hne : listSub s i j0 ≠ [] := by
        intro hemp
        have hl := congrArg List.length hemp
        rw [listSub_length s i j0 (by omega) (by omega)] at hl
        simp at hl
        omega
      rw [← listSub_append s i j0 j (by omega) hj0j]
      exact .starCons g r' _ _ hu hne hv

/-- Soundness of the matcher against the language semantics: on the
context-free fragment, every candidate match end delimits a word of the
regex's language. -/
theorem matches_of_mem_ends (r : Regex) (s : List Char) :
    ∀ i, contextFree r = true → ∀ j ∈ ends r s i, Matches r (listSub s i j) := by
  induction r with
  | eps =>
    intro i _ j hj
    rw [ends] at hj
    simp only [List.mem_singleton] at hj
    subst hj
    rw [listSub_self]
    exact .eps
  | char c =>
    intro i _ j hj
    rw [ends] at hj
    by_cases h : i < s.length
    · rw [dif_pos h] at hj
      by_cases hc : s.get ⟨i, h⟩ = c
      · rw [if_pos hc] at hj
        simp only [List.mem_singleton] at hj
        subst hj
        rw [listSub_single s i h, hc]
        exact .char c
      · rw [if_neg hc] at hj
        simp at hj
    · rw [dif_neg h] at hj
      simp at hj
  | cls p =>
    intro i _ j hj
    rw [ends] at hj
    by_cases h : i < s.length
    · rw [dif_pos h] at hj
      by_cases hc : p (s.get ⟨i, h⟩) = true
      · rw [if_pos hc] at hj
        simp only [List.mem_singleton] at hj
        subst hj
        rw [listSub_single s i h]
        exact .cls p _ hc
      · rw [if_neg hc] at hj
        simp at hj
    · rw [dif_neg h] at hj
      simp at hj
  | seq a b iha ihb =>
    intro i hcf j hj
    rw [contextFree, Bool.and_eq_true] at hcf
    rw [ends] at hj
    obtain ⟨m, hm, hjm⟩ := List.mem_flatMap.mp hj
    have h1 := iha i hcf.1 m hm
    have h2 := ihb m hcf.2 j hjm
    have him := ends_ge a s i m hm
    have hmj := ends_ge b s m j hjm
    rw [← listSub_append s i m j him hmj]
    exact .seq _ _ _ _ h1 h2
  | alt a b iha ihb =>
    intro i hcf j hj
    rw [contextFree, Bool.and_eq_true] at hcf
    rw [ends] at hj
    rcases List.mem_append.mp hj with h | h
    · exact .altL _ _ _ (iha i hcf.1 j h)
    · exact .altR _ _ _ (ihb i hcf.2 j h)
  | star g r' ih =>
    intro i hcf j hj
    rw [contextFree] at hcf
    rw [ends] at hj
    exact starCont_matches s r' g (fun x => ih x hcf) _ i j hj
  | wordB =>
    intro i hcf
    rw [contextFree] at hcf
    exact absurd hcf (by simp)
  | eos =>
    intro i hcf
    rw [contextFree] at hcf
    exact absurd hcf (by simp)

/-- Completeness of the matcher against the language semantics: on the
context-free fragment, whenever the span `[i, i + |u|)` of `s` spells a word
`u` of the regex's language, `i + |u|` is a candidate match end. -/
theorem mem_ends_of_matches {r : Regex} {u : List Char} (h : Matches r u) :
    ∀ s i, contextFree r = true → listSub s i (i + u.length) = u →
      i + u.length ≤ s.length → (i + u.length) ∈ ends r s i := by
  induction h with
  | eps =>
    intro s i _ _ _
    rw [ends]
    simp
  | char c =>
    intro s i _ hsub hlen
    simp only [List.length_singleton] at hsub hlen ⊢
    have hi : i < s.length := by omega
    rw [listSub_single s i hi] at hsub
    simp only [List.cons.injEq, and_true] at hsub
    rw [ends]
    rw [dif_pos hi, if_pos hsub]
    simp
  | cls p c hp =>
    intro s i _ hsub hlen
    simp only [List.length_singleton] at hsub hlen ⊢
    have hi : i < s.length := by omega
    rw [listSub_single s i hi] at hsub
    simp only [List.cons.injEq, and_true] at hsub
    rw [ends]
    rw [dif_pos hi, if_pos (hsub ▸ hp)]
    simp
  | seq a b u v hu hv ihu ihv =>
    intro s i hcf hsub hlen
    rw [contextFree, Bool.and_eq_true] at hcf
    simp only [List.length_append] at hsub hlen ⊢
    have hm : i + u.length ≤ i + (u.length + v.length) := by omega
    have hsplit := listSub_append s i (i + u.length) (i + u.length + v.length)
      (by omega) (by omega)
    rw [show i + (u.length + v.length) = i + u.length + v.length by omega] at hsub
    rw [hsub] at hsplit
    have hlen1 : (listSub s i (i + u.length)).length = u.length := by
      rw [listSub_length s i (i + u.length) (by omega) (by omega)]
      omega
    obtain ⟨hequ, heqv⟩ := List.append_inj hsplit hlen1
    rw [ends]
    refine List.mem_flatMap.mpr ⟨i + u.length, ihu s i hcf.1 hequ (by omega), ?_⟩
    have h2 := ihv s (i + u.length) hcf.2
      (by rw [show i + u.length + v.length = i + u.length + v.length by omega] at heqv; exact heqv)
      (by omega)
    rw [show i + (u.length + v.length) = i + u.length + v.length by omega]
    exact h2
  | altL a b u hu ihu =>
    intro s i hcf hsub hlen
    rw [contextFree, Bool.and_eq_true] at hcf
    rw [ends]
    exact List.mem_append_left _ (ihu s i hcf.1 hsub hlen)
  | altR a b u hu ihu =>
    intro s i hcf hsub hlen
    rw [contextFree, Bool.and_eq_true] at hcf
    rw [ends]
    exact List.mem_append_right _ (ihu s i hcf.2 hsub hlen)
  | starNil g r =>
    intro s i _ _ _
    rw [ends]
    simp only [List.length_nil, Nat.add_zero]
    exact starCont_self _ _ _ _ _
  | starCons g r u v hu hune hv ihu ihv =>
    intro s i hcf hsub hlen
    rw [contextFree] at hcf
    simp only [List.length_append] at hsub hlen ⊢
    have hsplit := listSub_append s i (i + u.length) (i + u.length + v.length)
      (by omega) (by omega)
    rw [show i + (u.length + v.length) = i + u.length + v.length by omega] at hsub
    rw [hsub] at hsplit
    have hlen1 : (listSub s i (i + u.length)).length = u.length := by
      rw [listSub_length s i (i + u.length) (by omega) (by omega)]
      omega
    obtain ⟨hequ, heqv⟩ := List.append_inj hsplit hlen1
    have hju : i + u.length ∈ ends r s i := ihu s i hcf hequ (by omega)
    have hupos : 0 < u.length := List.length_pos.mpr hune
    have hrest0 : i + u.length + v.length ∈ ends (.star g r) s (i + u.length) :=
      ihv s (i + u.length) hcf heqv (by omega)
    rw [ends] at hrest0 ⊢
    rw [show i + (u.length + v.length) = i + u.length + v.length by omega]
    obtain ⟨gg, hgg⟩ : ∃ gg, s.length + 1 - i = gg + 1 :=
      ⟨s.length - i, by omega⟩
    rw [hgg, mem_starCont_succ]
    refine Or.inr ⟨i + u.length, ?_, ?_⟩
    · refine List.mem_filter.mpr ⟨hju, ?_⟩
      simp only [Bool.and_eq_true, decide_eq_true_eq]
      omega
    · have hstab := starCont_stable (fun x => ends r s x) s.length g
        (fun x y hy => ends_ge r s x y hy) gg (s.length + 1 - (i + u.length))
        (i + u.length) (by omega) (by omega)
      rw [hstab]
      exact hrest0

end Regex


/-- Sequential literal text: the regex matching exactly the word `w`. -/
def chars (w : List Char) : Regex :=
  w.foldr (fun c r => .seq (.char c) r) .eps

/-- One-or-more repetition, Python `r+` (greedy). -/
def rplus (r : Regex) : Regex :=
  .seq r (.star true r)

/-- Optional occurrence, Python `r?` (greedy: presence is tried first). -/
def ropt (r : Regex) : Regex :=
  .alt r .eps

/-- A whole-word keyword pattern, Python `\b<w>\b`. -/
def kw (w : List Char) : Regex :=
  .seq .wordB (.seq (chars w) .wordB)

def newlineChar : Char := Char.ofNat 10
def tabChar : Char := Char.ofNat 9
def vtabChar : Char := Char.ofNat 11
def ffChar : Char := Char.ofNat 12
def crChar : Char := Char.ofNat 13
def barChar : Char := Char.ofNat 124
def quoteChar : Char := Char.ofNat 34
def apoChar : Char := Char.ofNat 39
def backslashChar : Char := Char.ofNat 92
def lcurlChar : Char := Char.ofNat 123
def rcurlChar : Char := Char.ofNat 125
def dotChar : Char := Char.ofNat 46
def underscoreChar : Char := Char.ofNat 95
def zeroChar : Char := Char.ofNat 48
def oneChar : Char := Char.ofNat 49
def bangChar : Char := Char.ofNat 33
def atChar : Char := Char.ofNat 64
def plusChar : Char := Char.ofNat 43
def minusChar : Char := Char.ofNat 45
def charR : Char := Char.ofNat 114
def charB : Char := Char.ofNat 98
def bigB : Char := Char.ofNat 66
def charX : Char := Char.ofNat 120
def bigX : Char := Char.ofNat 88
def charE : Char := Char.ofNat 101
def bigE : Char := Char.ofNat 69

/-- Python `.` without DOTALL: any character except a newline. -/
def dot : Regex := .cls (fun c => c != newlineChar)

/-- Pattern class `\d`. -/
def digit : Regex := .cls isDigitChar

/-- Hexadecimal digit class `[0-9a-fA-F]`. -/
def isHexDigit (c : Char) : Bool :=
  isDigitChar c || ('a' ≤ c && c ≤ 'f') || ('A' ≤ c && c ≤ 'F')

/-- Identifier start class `[a-zA-Z_]`. -/
def isIdentStartChar (c : Char) : Bool :=
  ('a' ≤ c && c ≤ 'z') || ('A' ≤ c && c ≤ 'Z') || c = '_'

def identStart : Regex := .cls isIdentStartChar

/-- A unit of a standard or byte string literal: `[^"\\]|\\.` . -/
def strItem : Regex :=
  .alt (.cls (fun c => c != quoteChar && c != backslashChar))
    (.seq (.char backslashChar) dot)

/-- A unit of a character literal: `[^\x27\\]|\\.` . -/
def charItem : Regex :=
  .alt (.cls (fun c => c != apoChar && c != backslashChar))
    (.seq (.char backslashChar) dot)

/-- Float mantissa `\d+\.\d*|\.\d+`. -/
def floatMantissa : Regex :=
  .alt (.seq (rplus digit) (.seq (.char dotChar) (.star true digit)))
    (.seq (.char dotChar) (rplus digit))

/-- Float exponent `[eE][+-]?\d+`. -/
def floatExp : Regex :=
  .seq (.cls (fun c => c = charE || c = bigE))
    (.seq (ropt (.cls (fun c => c = plusChar || c = minusChar))) (rplus digit))

/-- The closed enumeration of token kinds of tokens.py, in declaration
order. -/
inductive TokenType : Type where
  | COMMENT_MULTI_LINE : TokenType
  | COMMENT_SINGLE_LINE : TokenType
  | KEYWORD_IF : TokenType
  | KEYWORD_ELIF : TokenType
  | KEYWORD_ELSE : TokenType
  | KEYWORD_BREAK : TokenType
  | KEYWORD_CONTINUE : TokenType
  | KEYWORD_RETURN : TokenType
  | KEYWORD_LOOP : TokenType
  | KEYWORD_FOR : TokenType
  | KEYWORD_WHILE : TokenType
  | KEYWORD_DO : TokenType
  | KEYWORD_USE : TokenType
  | KEYWORD_AS : TokenType
  | KEYWORD_ASYNC : TokenType
  | KEYWORD_AWAIT : TokenType
  | KEYWORD_SELF : TokenType
  | KEYWORD_IN : TokenType
  | OPERATOR_BINARY_NIMPLY : TokenType
  | OPERATOR_BINARY_IMPLY : TokenType
  | OPERATOR_BINARY_XNOR : TokenType
  | OPERATOR_BINARY_NAND : TokenType
  | OPERATOR_BINARY_XOR : TokenType
  | OPERATOR_BINARY_NOR : TokenType
  | OPERATOR_BINARY_NOT : TokenType
  | OPERATOR_BINARY_AND : TokenType
  | OPERATOR_BINARY_OR : TokenType
  | OPERATOR_LOGICAL_NIMPLY : TokenType
  | OPERATOR_LOGICAL_IMPLY : TokenType
  | OPERATOR_LOGICAL_XNOR : TokenType
  | OPERATOR_LOGICAL_NAND : TokenType
  | OPERATOR_LOGICAL_XOR : TokenType
  | OPERATOR_LOGICAL_NOR : TokenType
  | OPERATOR_LOGICAL_NOT : TokenType
  | OPERATOR_LOGICAL_AND : TokenType
  | OPERATOR_LOGICAL_OR : TokenType
  | SEPARATOR_ARROW : TokenType
  | OPERATOR_RELATIONAL_LOWER_EQUAL : TokenType
  | OPERATOR_RELATIONAL_GREATER_EQUAL : TokenType
  | OPERATOR_RELATIONAL_EQUAL : TokenType
  | OPERATOR_RELATIONAL_NOT_EQUAL : TokenType
  | OPERATOR_RELATIONAL_LOWER : TokenType
  | OPERATOR_RELATIONAL_GREATER : TokenType
  | OPERATOR_ASSIGNMENT_ADDITION : TokenType
  | OPERATOR_ASSIGNMENT_SUBTRACTION : TokenType
  | OPERATOR_ASSIGNMENT_MULTIPLICATION : TokenType
  | OPERATOR_ASSIGNMENT_DIVISION : TokenType
  | OPERATOR_ASSIGNMENT_MODULO : TokenType
  | OPERATOR_ASSIGNMENT_EXPONENTIATION : TokenType
  | OPERATOR_ASSIGNMENT : TokenType
  | OPERATOR_ARITHMETIC_ADDITION : TokenType
  | OPERATOR_ARITHMETIC_SUBTRACTION : TokenType
  | OPERATOR_ARITHMETIC_MULTIPLICATION : TokenType
  | OPERATOR_ARITHMETIC_DIVISION : TokenType
  | OPERATOR_ARITHMETIC_MODULO : TokenType
  | OPERATOR_ARITHMETIC_EXPONENTIATION : TokenType
  | LITERAL_STRING_RAW : TokenType
  | LITERAL_STRING_BYTE : TokenType
  | LITERAL_STRING : TokenType
  | LITERAL_CHAR : TokenType
  | LITERAL_NUMBER_HEX : TokenType
  | LITERAL_NUMBER_BINARY : TokenType
  | LITERAL_NUMBER_FLOAT : TokenType
  | LITERAL_NUMBER_INTEGER : TokenType
  | SEPARATOR_ELLIPSIS : TokenType
  | SEPARATOR_DOUBLE_COLON : TokenType
  | SEPARATOR_BRACKET_ROUND_OPEN : TokenType
  | SEPARATOR_BRACKET_ROUND_CLOSED : TokenType
  | SEPARATOR_BRACKET_SQUARE_OPEN : TokenType
  | SEPARATOR_BRACKET_SQUARE_CLOSED : TokenType
  | SEPARATOR_BRACKET_CURLY_OPEN : TokenType
  | SEPARATOR_BRACKET_CURLY_CLOSED : TokenType
  | SEPARATOR_COMMA : TokenType
  | SEPARATOR_PERIOD : TokenType
  | SEPARATOR_EXCLAMATION_POINT : TokenType
  | SEPARATOR_QUESTION_MARK : TokenType
  | SEPARATOR_COLON : TokenType
  | SEPARATOR_SEMICOLON : TokenType
  | WHITESPACE_SPACE : TokenType
  | WHITESPACE_CHARACTER_TAB : TokenType
  | WHITESPACE_VERTICAL_TAB : TokenType
  | WHITESPACE_FORM_FEED : TokenType
  | WHITESPACE_CARRIAGE_RETURN : TokenType
  | WHITESPACE_LINE_FEED : TokenType
  | WHITESPACE_EOF : TokenType
  | IDENTIFIER_MACRO : TokenType
  | IDENTIFIER_DECORATOR : TokenType
  | IDENTIFIER_IDENTIFIER : TokenType
deriving DecidableEq, Repr

namespace TokenType

/-- All token kinds in declaration order (iteration order of the Python
enum). -/
def all : List TokenType :=
  [COMMENT_MULTI_LINE,
   COMMENT_SINGLE_LINE,
   KEYWORD_IF,
   KEYWORD_ELIF,
   KEYWORD_ELSE,
   KEYWORD_BREAK,
   KEYWORD_CONTINUE,
   KEYWORD_RETURN,
   KEYWORD_LOOP,
   KEYWORD_FOR,
   KEYWORD_WHILE,
   KEYWORD_DO,
   KEYWORD_USE,
   KEYWORD_AS,
   KEYWORD_ASYNC,
   KEYWORD_AWAIT,
   KEYWORD_SELF,
   KEYWORD_IN,
   OPERATOR_BINARY_NIMPLY,
   OPERATOR_BINARY_IMPLY,
   OPERATOR_BINARY_XNOR,
   OPERATOR_BINARY_NAND,
   OPERATOR_BINARY_XOR,
   OPERATOR_BINARY_NOR,
   OPERATOR_BINARY_NOT,
   OPERATOR_BINARY_AND,
   OPERATOR_BINARY_OR,
   OPERATOR_LOGICAL_NIMPLY,
   OPERATOR_LOGICAL_IMPLY,
   OPERATOR_LOGICAL_XNOR,
   OPERATOR_LOGICAL_NAND,
   OPERATOR_LOGICAL_XOR,
   OPERATOR_LOGICAL_NOR,
   OPERATOR_LOGICAL_NOT,
   OPERATOR_LOGICAL_AND,
   OPERATOR_LOGICAL_OR,
   SEPARATOR_ARROW,
   OPERATOR_RELATIONAL_LOWER_EQUAL,
   OPERATOR_RELATIONAL_GREATER_EQUAL,
   OPERATOR_RELATIONAL_EQUAL,
   OPERATOR_RELATIONAL_NOT_EQUAL,
   OPERATOR_RELATIONAL_LOWER,
   OPERATOR_RELATIONAL_GREATER,
   OPERATOR_ASSIGNMENT_ADDITION,
   OPERATOR_ASSIGNMENT_SUBTRACTION,
   OPERATOR_ASSIGNMENT_MULTIPLICATION,
   OPERATOR_ASSIGNMENT_DIVISION,
   OPERATOR_ASSIGNMENT_MODULO,
   OPERATOR_ASSIGNMENT_EXPONENTIATION,
   OPERATOR_ASSIGNMENT,
   OPERATOR_ARITHMETIC_ADDITION,
   OPERATOR_ARITHMETIC_SUBTRACTION,
   OPERATOR_ARITHMETIC_MULTIPLICATION,
   OPERATOR_ARITHMETIC_DIVISION,
   OPERATOR_ARITHMETIC_MODULO,
   OPERATOR_ARITHMETIC_EXPONENTIATION,
   LITERAL_STRING_RAW,
   LITERAL_STRING_BYTE,
   LITERAL_STRING,
   LITERAL_CHAR,
   LITERAL_NUMBER_HEX,
   LITERAL_NUMBER_BINARY,
   LITERAL_NUMBER_FLOAT,
   LITERAL_NUMBER_INTEGER,
   SEPARATOR_ELLIPSIS,
   SEPARATOR_DOUBLE_COLON,
   SEPARATOR_BRACKET_ROUND_OPEN,
   SEPARATOR_BRACKET_ROUND_CLOSED,
   SEPARATOR_BRACKET_SQUARE_OPEN,
   SEPARATOR_BRACKET_SQUARE_CLOSED,
   SEPARATOR_BRACKET_CURLY_OPEN,
   SEPARATOR_BRACKET_CURLY_CLOSED,
   SEPARATOR_COMMA,
   SEPARATOR_PERIOD,
   SEPARATOR_EXCLAMATION_POINT,
   SEPARATOR_QUESTION_MARK,
   SEPARATOR_COLON,
   SEPARATOR_SEMICOLON,
   WHITESPACE_SPACE,
   WHITESPACE_CHARACTER_TAB,
   WHITESPACE_VERTICAL_TAB,
   WHITESPACE_FORM_FEED,
   WHITESPACE_CARRIAGE_RETURN,
   WHITESPACE_LINE_FEED,
   WHITESPACE_EOF,
   IDENTIFIER_MACRO,
   IDENTIFIER_DECORATOR,
   IDENTIFIER_IDENTIFIER]

/-- The Python enum member name of a token kind. -/
def name : TokenType → String
  | COMMENT_MULTI_LINE => "COMMENT_MULTI_LINE"
  | COMMENT_SINGLE_LINE => "COMMENT_SINGLE_LINE"
  | KEYWORD_IF => "KEYWORD_IF"
  | KEYWORD_ELIF => "KEYWORD_ELIF"
  | KEYWORD_ELSE => "KEYWORD_ELSE"
  | KEYWORD_BREAK => "KEYWORD_BREAK"
  | KEYWORD_CONTINUE => "KEYWORD_CONTINUE"
  | KEYWORD_RETURN => "KEYWORD_RETURN"
  | KEYWORD_LOOP => "KEYWORD_LOOP"
  | KEYWORD_FOR => "KEYWORD_FOR"
  | KEYWORD_WHILE => "KEYWORD_WHILE"
  | KEYWORD_DO => "KEYWORD_DO"
  | KEYWORD_USE => "KEYWORD_USE"
  | KEYWORD_AS => "KEYWORD_AS"
  | KEYWORD_ASYNC => "KEYWORD_ASYNC"
  | KEYWORD_AWAIT => "KEYWORD_AWAIT"
  | KEYWORD_SELF => "KEYWORD_SELF"
  | KEYWORD_IN => "KEYWORD_IN"
  | OPERATOR_BINARY_NIMPLY => "OPERATOR_BINARY_NIMPLY"
  | OPERATOR_BINARY_IMPLY => "OPERATOR_BINARY_IMPLY"
  | OPERATOR_BINARY_XNOR => "OPERATOR_BINARY_XNOR"
  | OPERATOR_BINARY_NAND => "OPERATOR_BINARY_NAND"
  | OPERATOR_BINARY_XOR => "OPERATOR_BINARY_XOR"
  | OPERATOR_BINARY_NOR => "OPERATOR_BINARY_NOR"
  | OPERATOR_BINARY_NOT => "OPERATOR_BINARY_NOT"
  | OPERATOR_BINARY_AND => "OPERATOR_BINARY_AND"
  | OPERATOR_BINARY_OR => "OPERATOR_BINARY_OR"
  | OPERATOR_LOGICAL_NIMPLY => "OPERATOR_LOGICAL_NIMPLY"
  | OPERATOR_LOGICAL_IMPLY => "OPERATOR_LOGICAL_IMPLY"
  | OPERATOR_LOGICAL_XNOR => "OPERATOR_LOGICAL_XNOR"
  | OPERATOR_LOGICAL_NAND => "OPERATOR_LOGICAL_NAND"
  | OPERATOR_LOGICAL_XOR => "OPERATOR_LOGICAL_XOR"
  | OPERATOR_LOGICAL_NOR => "OPERATOR_LOGICAL_NOR"
  | OPERATOR_LOGICAL_NOT => "OPERATOR_LOGICAL_NOT"
  | OPERATOR_LOGICAL_AND => "OPERATOR_LOGICAL_AND"
  | OPERATOR_LOGICAL_OR => "OPERATOR_LOGICAL_OR"
  | SEPARATOR_ARROW => "SEPARATOR_ARROW"
  | OPERATOR_RELATIONAL_LOWER_EQUAL => "OPERATOR_RELATIONAL_LOWER_EQUAL"
  | OPERATOR_RELATIONAL_GREATER_EQUAL => "OPERATOR_RELATIONAL_GREATER_EQUAL"
  | OPERATOR_RELATIONAL_EQUAL => "OPERATOR_RELATIONAL_EQUAL"
  | OPERATOR_RELATIONAL_NOT_EQUAL => "OPERATOR_RELATIONAL_NOT_EQUAL"
  | OPERATOR_RELATIONAL_LOWER => "OPERATOR_RELATIONAL_LOWER"
  | OPERATOR_RELATIONAL_GREATER => "OPERATOR_RELATIONAL_GREATER"
  | OPERATOR_ASSIGNMENT_ADDITION => "OPERATOR_ASSIGNMENT_ADDITION"
  | OPERATOR_ASSIGNMENT_SUBTRACTION => "OPERATOR_ASSIGNMENT_SUBTRACTION"
  | OPERATOR_ASSIGNMENT_MULTIPLICATION => "OPERATOR_ASSIGNMENT_MULTIPLICATION"
  | OPERATOR_ASSIGNMENT_DIVISION => "OPERATOR_ASSIGNMENT_DIVISION"
  | OPERATOR_ASSIGNMENT_MODULO => "OPERATOR_ASSIGNMENT_MODULO"
  | OPERATOR_ASSIGNMENT_EXPONENTIATION => "OPERATOR_ASSIGNMENT_EXPONENTIATION"
  | OPERATOR_ASSIGNMENT => "OPERATOR_ASSIGNMENT"
  | OPERATOR_ARITHMETIC_ADDITION => "OPERATOR_ARITHMETIC_ADDITION"
  | OPERATOR_ARITHMETIC_SUBTRACTION => "OPERATOR_ARITHMETIC_SUBTRACTION"
  | OPERATOR_ARITHMETIC_MULTIPLICATION => "OPERATOR_ARITHMETIC_MULTIPLICATION"
  | OPERATOR_ARITHMETIC_DIVISION => "OPERATOR_ARITHMETIC_DIVISION"
  | OPERATOR_ARITHMETIC_MODULO => "OPERATOR_ARITHMETIC_MODULO"
  | OPERATOR_ARITHMETIC_EXPONENTIATION => "OPERATOR_ARITHMETIC_EXPONENTIATION"
  | LITERAL_STRING_RAW => "LITERAL_STRING_RAW"
  | LITERAL_STRING_BYTE => "LITERAL_STRING_BYTE"
  | LITERAL_STRING => "LITERAL_STRING"
  | LITERAL_CHAR => "LITERAL_CHAR"
  | LITERAL_NUMBER_HEX => "LITERAL_NUMBER_HEX"
  | LITERAL_NUMBER_BINARY => "LITERAL_NUMBER_BINARY"
  | LITERAL_NUMBER_FLOAT => "LITERAL_NUMBER_FLOAT"
  | LITERAL_NUMBER_INTEGER => "LITERAL_NUMBER_INTEGER"
  | SEPARATOR_ELLIPSIS => "SEPARATOR_ELLIPSIS"
  | SEPARATOR_DOUBLE_COLON => "SEPARATOR_DOUBLE_COLON"
  | SEPARATOR_BRACKET_ROUND_OPEN => "SEPARATOR_BRACKET_ROUND_OPEN"
  | SEPARATOR_BRACKET_ROUND_CLOSED => "SEPARATOR_BRACKET_ROUND_CLOSED"
  | SEPARATOR_BRACKET_SQUARE_OPEN => "SEPARATOR_BRACKET_SQUARE_OPEN"
  | SEPARATOR_BRACKET_SQUARE_CLOSED => "SEPARATOR_BRACKET_SQUARE_CLOSED"
  | SEPARATOR_BRACKET_CURLY_OPEN => "SEPARATOR_BRACKET_CURLY_OPEN"
  | SEPARATOR_BRACKET_CURLY_CLOSED => "SEPARATOR_BRACKET_CURLY_CLOSED"
  | SEPARATOR_COMMA => "SEPARATOR_COMMA"
  | SEPARATOR_PERIOD => "SEPARATOR_PERIOD"
  | SEPARATOR_EXCLAMATION_POINT => "SEPARATOR_EXCLAMATION_POINT"
  | SEPARATOR_QUESTION_MARK => "SEPARATOR_QUESTION_MARK"
  | SEPARATOR_COLON => "SEPARATOR_COLON"
  | SEPARATOR_SEMICOLON => "SEPARATOR_SEMICOLON"
  | WHITESPACE_SPACE => "WHITESPACE_SPACE"
  | WHITESPACE_CHARACTER_TAB => "WHITESPACE_CHARACTER_TAB"
  | WHITESPACE_VERTICAL_TAB => "WHITESPACE_VERTICAL_TAB"
  | WHITESPACE_FORM_FEED => "WHITESPACE_FORM_FEED"
  | WHITESPACE_CARRIAGE_RETURN => "WHITESPACE_CARRIAGE_RETURN"
  | WHITESPACE_LINE_FEED => "WHITESPACE_LINE_FEED"
  | WHITESPACE_EOF => "WHITESPACE_EOF"
  | IDENTIFIER_MACRO => "IDENTIFIER_MACRO"
  | IDENTIFIER_DECORATOR => "IDENTIFIER_DECORATOR"
  | IDENTIFIER_IDENTIFIER => "IDENTIFIER_IDENTIFIER"

/-- The raw pattern string bound to a token kind (the Python enum member
value). -/
def value : TokenType → String
  | COMMENT_MULTI_LINE => "\\|-(.|\\n)*?-\\|"
  | COMMENT_SINGLE_LINE => "\\|.*"
  | KEYWORD_IF => "\\bif\\b"
  | KEYWORD_ELIF => "\\belif\\b"
  | KEYWORD_ELSE => "\\belse\\b"
  | KEYWORD_BREAK => "\\bbreak\\b"
  | KEYWORD_CONTINUE => "\\bcontinue\\b"
  | KEYWORD_RETURN => "\\breturn\\b"
  | KEYWORD_LOOP => "\\bloop\\b"
  | KEYWORD_FOR => "\\bfor\\b"
  | KEYWORD_WHILE => "\\bwhile\\b"
  | KEYWORD_DO => "\\bdo\\b"
  | KEYWORD_USE => "\\buse\\b"
  | KEYWORD_AS => "\\bas\\b"
  | KEYWORD_ASYNC => "\\basync\\b"
  | KEYWORD_AWAIT => "\\bawait\\b"
  | KEYWORD_SELF => "\\bSelf\\b"
  | KEYWORD_IN => "\\bin\\b"
  | OPERATOR_BINARY_NIMPLY => "bNIMPLY"
  | OPERATOR_BINARY_IMPLY => "bIMPLY"
  | OPERATOR_BINARY_XNOR => "bXNOR"
  | OPERATOR_BINARY_NAND => "bNAND"
  | OPERATOR_BINARY_XOR => "bXOR"
  | OPERATOR_BINARY_NOR => "bNOR"
  | OPERATOR_BINARY_NOT => "bNOT"
  | OPERATOR_BINARY_AND => "bAND"
  | OPERATOR_BINARY_OR => "bOR"
  | OPERATOR_LOGICAL_NIMPLY => "NIMPLY"
  | OPERATOR_LOGICAL_IMPLY => "IMPLY"
  | OPERATOR_LOGICAL_XNOR => "XNOR"
  | OPERATOR_LOGICAL_NAND => "NAND"
  | OPERATOR_LOGICAL_XOR => "XOR"
  | OPERATOR_LOGICAL_NOR => "NOR"
  | OPERATOR_LOGICAL_NOT => "NOT"
  | OPERATOR_LOGICAL_AND => "AND"
  | OPERATOR_LOGICAL_OR => "OR"
  | SEPARATOR_ARROW => "->"
  | OPERATOR_RELATIONAL_LOWER_EQUAL => "<="
  | OPERATOR_RELATIONAL_GREATER_EQUAL => ">="
  | OPERATOR_RELATIONAL_EQUAL => "=="
  | OPERATOR_RELATIONAL_NOT_EQUAL => "!="
  | OPERATOR_RELATIONAL_LOWER => "<"
  | OPERATOR_RELATIONAL_GREATER => ">"
  | OPERATOR_ASSIGNMENT_ADDITION => "\\+="
  | OPERATOR_ASSIGNMENT_SUBTRACTION => "-="
  | OPERATOR_ASSIGNMENT_MULTIPLICATION => "\\*="
  | OPERATOR_ASSIGNMENT_DIVISION => "/="
  | OPERATOR_ASSIGNMENT_MODULO => "%="
  | OPERATOR_ASSIGNMENT_EXPONENTIATION => "\\^="
  | OPERATOR_ASSIGNMENT => "="
  | OPERATOR_ARITHMETIC_ADDITION => "\\+"
  | OPERATOR_ARITHMETIC_SUBTRACTION => "-"
  | OPERATOR_ARITHMETIC_MULTIPLICATION => "\\*"
  | OPERATOR_ARITHMETIC_DIVISION => "/"
  | OPERATOR_ARITHMETIC_MODULO => "%"
  | OPERATOR_ARITHMETIC_EXPONENTIATION => "\\^"
  | LITERAL_STRING_RAW => "r\"([^\"])*\""
  | LITERAL_STRING_BYTE => "b\"([^\"\\\\]|\\\\.)*\""
  | LITERAL_STRING => "\"([^\"\\\\]|\\\\.)*\""
  | LITERAL_CHAR => "'([^'\\\\]|\\\\.)'"
  | LITERAL_NUMBER_HEX => "0[xX][0-9a-fA-F]+"
  | LITERAL_NUMBER_BINARY => "0[bB][01]+"
  | LITERAL_NUMBER_FLOAT => "(\\d+\\.\\d*|\\.\\d+)([eE][+-]?\\d+)?|\\d+[eE][+-]?\\d+"
  | LITERAL_NUMBER_INTEGER => "\\d(?:_?\\d)*"
  | SEPARATOR_ELLIPSIS => "\\.\\.\\."
  | SEPARATOR_DOUBLE_COLON => "::"
  | SEPARATOR_BRACKET_ROUND_OPEN => "\\("
  | SEPARATOR_BRACKET_ROUND_CLOSED => "\\)"
  | SEPARATOR_BRACKET_SQUARE_OPEN => "\\["
  | SEPARATOR_BRACKET_SQUARE_CLOSED => "\\]"
  | SEPARATOR_BRACKET_CURLY_OPEN => "\\\x7b"
  | SEPARATOR_BRACKET_CURLY_CLOSED => "\\\x7d"
  | SEPARATOR_COMMA => ","
  | SEPARATOR_PERIOD => "\\."
  | SEPARATOR_EXCLAMATION_POINT => "!"
  | SEPARATOR_QUESTION_MARK => "\\?"
  | SEPARATOR_COLON => ":"
  | SEPARATOR_SEMICOLON => ";"
  | WHITESPACE_SPACE => " "
  | WHITESPACE_CHARACTER_TAB => "\\t"
  | WHITESPACE_VERTICAL_TAB => "\\v"
  | WHITESPACE_FORM_FEED => "\\f"
  | WHITESPACE_CARRIAGE_RETURN => "\\r"
  | WHITESPACE_LINE_FEED => "\\n"
  | WHITESPACE_EOF => "$"
  | IDENTIFIER_MACRO => "[a-zA-Z_][a-zA-Z0-9_]*!"
  | IDENTIFIER_DECORATOR => "@[a-zA-Z_][a-zA-Z0-9_]*"
  | IDENTIFIER_IDENTIFIER => "[a-zA-Z_][a-zA-Z0-9_]*"

/-- The compiled pattern of a token kind: the regex AST denoted by
`value`. -/
def pattern : TokenType → Regex
  | COMMENT_MULTI_LINE => .seq (chars (String.toList "|-")) (.seq (.star false (.alt dot (.char newlineChar))) (chars (String.toList "-|")))
  | COMMENT_SINGLE_LINE => .seq (.char barChar) (.star true dot)
  | KEYWORD_IF => kw (String.toList "if")
  | KEYWORD_ELIF => kw (String.toList "elif")
  | KEYWORD_ELSE => kw (String.toList "else")
  | KEYWORD_BREAK => kw (String.toList "break")
  | KEYWORD_CONTINUE => kw (String.toList "continue")
  | KEYWORD_RETURN => kw (String.toList "return")
  | KEYWORD_LOOP => kw (String.toList "loop")
  | KEYWORD_FOR => kw (String.toList "for")
  | KEYWORD_WHILE => kw (String.toList "while")
  | KEYWORD_DO => kw (String.toList "do")
  | KEYWORD_USE => kw (String.toList "use")
  | KEYWORD_AS => kw (String.toList "as")
  | KEYWORD_ASYNC => kw (String.toList "async")
  | KEYWORD_AWAIT => kw (String.toList "await")
  | KEYWORD_SELF => kw (String.toList "Self")
  | KEYWORD_IN => kw (String.toList "in")
  | OPERATOR_BINARY_NIMPLY => chars (String.toList "bNIMPLY")
  | OPERATOR_BINARY_IMPLY => chars (String.toList "bIMPLY")
  | OPERATOR_BINARY_XNOR => chars (String.toList "bXNOR")
  | OPERATOR_BINARY_NAND => chars (String.toList "bNAND")
  | OPERATOR_BINARY_XOR => chars (String.toList "bXOR")
  | OPERATOR_BINARY_NOR => chars (String.toList "bNOR")
  | OPERATOR_BINARY_NOT => chars (String.toList "bNOT")
  | OPERATOR_BINARY_AND => chars (String.toList "bAND")
  | OPERATOR_BINARY_OR => chars (String.toList "bOR")
  | OPERATOR_LOGICAL_NIMPLY => chars (String.toList "NIMPLY")
  | OPERATOR_LOGICAL_IMPLY => chars (String.toList "IMPLY")
  | OPERATOR_LOGICAL_XNOR => chars (String.toList "XNOR")
  | OPERATOR_LOGICAL_NAND => chars (String.toList "NAND")
  | OPERATOR_LOGICAL_XOR => chars (String.toList "XOR")
  | OPERATOR_LOGICAL_NOR => chars (String.toList "NOR")
  | OPERATOR_LOGICAL_NOT => chars (String.toList "NOT")
  | OPERATOR_LOGICAL_AND => chars (String.toList "AND")
  | OPERATOR_LOGICAL_OR => chars (String.toList "OR")
  | SEPARATOR_ARROW => chars (String.toList "->")
  | OPERATOR_RELATIONAL_LOWER_EQUAL => chars (String.toList "<=")
  | OPERATOR_RELATIONAL_GREATER_EQUAL => chars (String.toList ">=")
  | OPERATOR_RELATIONAL_EQUAL => chars (String.toList "==")
  | OPERATOR_RELATIONAL_NOT_EQUAL => chars (String.toList "!=")
  | OPERATOR_RELATIONAL_LOWER => chars (String.toList "<")
  | OPERATOR_RELATIONAL_GREATER => chars (String.toList ">")
  | OPERATOR_ASSIGNMENT_ADDITION => chars (String.toList "+=")
  | OPERATOR_ASSIGNMENT_SUBTRACTION => chars (String.toList "-=")
  | OPERATOR_ASSIGNMENT_MULTIPLICATION => chars (String.toList "*=")
  | OPERATOR_ASSIGNMENT_DIVISION => chars (String.toList "/=")
  | OPERATOR_ASSIGNMENT_MODULO => chars (String.toList "%=")
  | OPERATOR_ASSIGNMENT_EXPONENTIATION => chars (String.toList "^=")
  | OPERATOR_ASSIGNMENT => chars (String.toList "=")
  | OPERATOR_ARITHMETIC_ADDITION => chars (String.toList "+")
  | OPERATOR_ARITHMETIC_SUBTRACTION => chars (String.toList "-")
  | OPERATOR_ARITHMETIC_MULTIPLICATION => chars (String.toList "*")
  | OPERATOR_ARITHMETIC_DIVISION => chars (String.toList "/")
  | OPERATOR_ARITHMETIC_MODULO => chars (String.toList "%")
  | OPERATOR_ARITHMETIC_EXPONENTIATION => chars (String.toList "^")
  | LITERAL_STRING_RAW => .seq (.char charR) (.seq (.char quoteChar) (.seq (.star true (.cls (fun c => c != quoteChar))) (.char quoteChar)))
  | LITERAL_STRING_BYTE => .seq (.char charB) (.seq (.char quoteChar) (.seq (.star true strItem) (.char quoteChar)))
  | LITERAL_STRING => .seq (.char quoteChar) (.seq (.star true strItem) (.char quoteChar))
  | LITERAL_CHAR => .seq (.char apoChar) (.seq charItem (.char apoChar))
  | LITERAL_NUMBER_HEX => .seq (.char zeroChar) (.seq (.cls (fun c => c = charX || c = bigX)) (rplus (.cls isHexDigit)))
  | LITERAL_NUMBER_BINARY => .seq (.char zeroChar) (.seq (.cls (fun c => c = charB || c = bigB)) (rplus (.cls (fun c => c = zeroChar || c = oneChar))))
  | LITERAL_NUMBER_FLOAT => .alt (.seq floatMantissa (ropt floatExp)) (.seq (rplus digit) floatExp)
  | LITERAL_NUMBER_INTEGER => .seq digit (.star true (.seq (ropt (.char underscoreChar)) digit))
  | SEPARATOR_ELLIPSIS => chars (String.toList "...")
  | SEPARATOR_DOUBLE_COLON => chars (String.toList "::")
  | SEPARATOR_BRACKET_ROUND_OPEN => chars (String.toList "(")
  | SEPARATOR_BRACKET_ROUND_CLOSED => chars (String.toList ")")
  | SEPARATOR_BRACKET_SQUARE_OPEN => chars (String.toList "[")
  | SEPARATOR_BRACKET_SQUARE_CLOSED => chars (String.toList "]")
  | SEPARATOR_BRACKET_CURLY_OPEN => .char lcurlChar
  | SEPARATOR_BRACKET_CURLY_CLOSED => .char rcurlChar
  | SEPARATOR_COMMA => chars (String.toList ",")
  | SEPARATOR_PERIOD => chars (String.toList ".")
  | SEPARATOR_EXCLAMATION_POINT => chars (String.toList "!")
  | SEPARATOR_QUESTION_MARK => chars (String.toList "?")
  | SEPARATOR_COLON => chars (String.toList ":")
  | SEPARATOR_SEMICOLON => chars (String.toList ";")
  | WHITESPACE_SPACE => chars (String.toList " ")
  | WHITESPACE_CHARACTER_TAB => .char tabChar
  | WHITESPACE_VERTICAL_TAB => .char vtabChar
  | WHITESPACE_FORM_FEED => .char ffChar
  | WHITESPACE_CARRIAGE_RETURN => .char crChar
  | WHITESPACE_LINE_FEED => .char newlineChar
  | WHITESPACE_EOF => .eos
  | IDENTIFIER_MACRO => .seq identStart (.seq (.star true (.cls isWordChar)) (.char bangChar))
  | IDENTIFIER_DECORATOR => .seq (.char atChar) (.seq identStart (.star true (.cls isWordChar)))
  | IDENTIFIER_IDENTIFIER => .seq identStart (.star true (.cls isWordChar))

end TokenType

/-- The closed enumeration of token categories of tokens.py, in declaration
order. -/
inductive TokenCategory : Type where
  | KEYWORD : TokenCategory
  | SEPARATOR : TokenCategory
  | OPERATOR : TokenCategory
  | LITERAL : TokenCategory
  | COMMENT : TokenCategory
  | WHITESPACE : TokenCategory
  | IDENTIFIER : TokenCategory
  | UNKNOWN : TokenCategory
deriving DecidableEq, Repr

namespace TokenCategory

/-- All categories in declaration order (iteration order of the Python
enum). -/
def all : List TokenCategory :=
  [KEYWORD, SEPARATOR, OPERATOR, LITERAL, COMMENT, WHITESPACE, IDENTIFIER,
   UNKNOWN]

/-- The Python member name of a category, which is also its `StrEnum` string
value. -/
def value : TokenCategory → String
  | KEYWORD => "KEYWORD"
  | SEPARATOR => "SEPARATOR"
  | OPERATOR => "OPERATOR"
  | LITERAL => "LITERAL"
  | COMMENT => "COMMENT"
  | WHITESPACE => "WHITESPACE"
  | IDENTIFIER => "IDENTIFIER"
  | UNKNOWN => "UNKNOWN"

end TokenCategory

/-- The inner loop of tokens.py `_get_category_map`: the first category (in
declaration order) whose name is a prefix of the token-kind name, with the
UNKNOWN fallback when the loop finds none. -/
def firstPrefixCategory : List TokenCategory → String → TokenCategory
  | [], _ => .UNKNOWN
  | c :: cs, n =>
      if List.isPrefixOf (TokenCategory.value c).toList n.toList then c
      else firstPrefixCategory cs n

/-- tokens.py `_get_category_map` / `TokenCategory.from_token_type`: the
category derived from a token kind by name-prefix matching. -/
def categoryMap (t : TokenType) : TokenCategory :=
  firstPrefixCategory TokenCategory.all (TokenType.name t)

/-- tokens.py `TokenType.category` property. -/
def TokenType.category (t : TokenType) : TokenCategory :=
  categoryMap t

/-- The regex metacharacters of lexer.py `_is_literal_pattern`. -/
def metaChars : List Char :=
  String.toList ".^$*+?\x7b\x7d[]\\|()"

/-- lexer.py `_is_literal_pattern`: a pattern with no regex metacharacter is
a static literal. -/
def isLiteralPattern (t : TokenType) : Bool :=
  !((TokenType.value t).toList.any (fun c => metaChars.contains c))

/-- One step of a stable descending-length insertion sort: `x` is placed
after every already-sorted element whose pattern text is at least as long,
reproducing Python's stable `sort(key=len, reverse=True)`. -/
def insertByLen (x : TokenType) : List TokenType → List TokenType
  | [] => [x]
  | y :: ys =>
      if (TokenType.value x).length ≤ (TokenType.value y).length then
        y :: insertByLen x ys
      else
        x :: y :: ys

/-- Stable sort of the literal patterns by descending text length. -/
def sortLitsDesc (l : List TokenType) : List TokenType :=
  l.foldl (fun acc x => insertByLen x acc) []

/-- lexer.py `_compile_master_regex`: the alternation order of the master
pattern — literals sorted by descending length first, then the remaining
patterns in declaration order. -/
def masterList : List TokenType :=
  sortLitsDesc (TokenType.all.filter isLiteralPattern) ++
    TokenType.all.filter (fun t => !(isLiteralPattern t))

/-- Matching the master alternation at position `i`: the first kind in
`masterList` whose pattern matches there wins (leftmost-first alternation),
and the end of the match is the backtracking engine's first candidate end of
that pattern. -/
def firstMatch : List TokenType → List Char → Nat → Option (TokenType × Nat)
  | [], _, _ => none
  | t :: ts, s, i =>
      match Regex.ends (TokenType.pattern t) s i with
      | [] => firstMatch ts s i
      | e :: _ => some (t, e)

/-- Every pattern except the `$` pattern of `WHITESPACE_EOF` consumes at
least one character on any match. -/
theorem nonNullable_pattern (t : TokenType) (h : t ≠ TokenType.WHITESPACE_EOF) :
    Regex.nonNullable (TokenType.pattern t) = true := by
  cases t <;> first | rfl | exact absurd rfl h

theorem firstMatch_mem (l : List TokenType) (s : List Char) (i : Nat)
    (t : TokenType) (e : Nat) (h : firstMatch l s i = some (t, e)) :
    t ∈ l ∧ e ∈ Regex.ends (TokenType.pattern t) s i := by
  induction l with
  | nil => simp [firstMatch] at h
  | cons x xs ih =>
    rw [firstMatch] at h
    cases hx : Regex.ends (TokenType.pattern x) s i with
    | nil =>
      rw [hx] at h
      obtain ⟨h1, h2⟩ := ih h
      exact ⟨List.mem_cons_of_mem x h1, h2⟩
    | cons e0 rest =>
      rw [hx] at h
      obtain ⟨ht, he⟩ : x = t ∧ e0 = e := by
        injection h with h
        injection h with h1 h2
        exact ⟨h1, h2⟩
      subst ht
      subst he
      exact ⟨List.mem_cons_self x xs, by rw [hx]; exact List.mem_cons_self _ _⟩

theorem firstMatch_append (l1 l2 : List TokenType) (s : List Char) (i : Nat) :
    firstMatch (l1 ++ l2) s i = (firstMatch l1 s i).or (firstMatch l2 s i) := by
  induction l1 with
  | nil => simp [firstMatch]
  | cons x xs ih =>
    rw [List.cons_append, firstMatch, firstMatch]
    cases hx : Regex.ends (TokenType.pattern x) s i with
    | nil => simpa using ih
    | cons e0 rest => simp

/-- Inside the source, the winning kind is never `WHITESPACE_EOF`: the only
positions where `$` could match strictly inside the string carry a final
newline, and the `\n` pattern of `WHITESPACE_LINE_FEED` sits earlier in the
master alternation. -/
theorem firstMatch_ne_eof (s : List Char) (i : Nat) (hi : i < s.length) (e : Nat) :
    firstMatch masterList s i ≠ some (TokenType.WHITESPACE_EOF, e) := by
  intro h
  have hdec : masterList = masterList.take 83 ++
      TokenType.WHITESPACE_LINE_FEED :: TokenType.WHITESPACE_EOF ::
      masterList.drop 85 := by decide
  rw [hdec, firstMatch_append] at h
  cases hfm : firstMatch (masterList.take 83) s i with
  | some r =>
    rw [hfm] at h
    simp only [Option.or] at h
    injection h with h
    subst h
    have hmem := (firstMatch_mem _ s i _ e hfm).1
    revert hmem
    decide
  | none =>
    rw [hfm] at h
    simp only [Option.or] at h
    rw [firstMatch] at h
    cases hlf : Regex.ends (TokenType.pattern TokenType.WHITESPACE_LINE_FEED) s i with
    | cons e0 rest =>
      rw [hlf] at h
      injection h with h
      injection h with h1 h2
      exact absurd h1 (by decide)
    | nil =>
      rw [hlf] at h
      rw [firstMatch] at h
      cases heo : Regex.ends (TokenType.pattern TokenType.WHITESPACE_EOF) s i with
      | nil =>
        rw [heo] at h
        have hmem := (firstMatch_mem _ s i _ e h).1
        revert hmem
        decide
      | cons e0 rest =>
        have hat : Regex.atEos s i = true := by
          by_contra hne
          rw [show TokenType.pattern TokenType.WHITESPACE_EOF = Regex.eos from rfl,
            Regex.ends] at heo
          rw [if_neg hne] at heo
          exact List.noConfusion heo
        rw [Regex.atEos, Bool.or_eq_true] at hat
        rcases hat with h1 | h1
        · simp only [decide_eq_true_eq] at h1
          omega
        · simp only [Bool.and_eq_true, decide_eq_true_eq] at h1
          rw [show TokenType.pattern TokenType.WHITESPACE_LINE_FEED =
            Regex.char newlineChar from rfl, Regex.ends] at hlf
          rw [dif_pos hi] at hlf
          have : s.get ⟨i, hi⟩ = newlineChar := by
            have h2 := h1.2
            rw [List.get?_eq_getElem?, List.getElem?_eq_getElem hi] at h2
            exact Option.some.inj h2
          rw [if_pos this] at hlf
          exact List.noConfusion hlf

/-- Progress of the master matcher: strictly inside the source, a successful
match strictly advances the position and stays within bounds. -/
theorem firstMatch_progress (s : List Char) (i : Nat) (hi : i < s.length)
    (t : TokenType) (e : Nat) (h : firstMatch masterList s i = some (t, e)) :
    i < e ∧ e ≤ s.length := by
  obtain ⟨hmem, hend⟩ := firstMatch_mem masterList s i t e h
  have hne : t ≠ .WHITESPACE_EOF := by
    intro heq
    subst heq
    exact firstMatch_ne_eof s i hi e h
  have h1 := Regex.ends_pos _ (nonNullable_pattern t hne) s i e hend
  have h2 := Regex.ends_le _ s i e hend
  omega

/-- lexer.py `_INTERN_MAX_LENGTH`. -/
def internMaxLength : Nat := 20

/-- Value object for the cursor: absolute 0-based position, 1-based line and
column (lexer.py `Location` plus the mutable `_pos/_line/_col` triple). -/
structure Loc where
  pos : Nat
  line : Nat
  col : Nat
deriving DecidableEq, Repr

/-- lexer.py start state `_START_POS/_START_LINE/_START_COL`. -/
def startLoc : Loc := ⟨0, 1, 1⟩

/-- tokens.py `Token`: the immutable data carrier of a matched lexeme. -/
structure Token where
  type : TokenType
  text : List Char
  position : Nat
  line : Nat
  column : Nat
deriving DecidableEq, Repr

/-- utils.py `DebugInfo`: immutable error context.  The lexer always fills
every field, so the optional fields are modelled as present. -/
structure DebugInfo where
  offendingText : List Char
  position : Nat
  line : Nat
  column : Nat
  filename : String
  sourceLine : List Char
  hint : String
deriving DecidableEq, Repr

/-- The immutable construction data of a `Lexer` (lexer.py `__init__`).
`ignoreTypes` models the Python `set` passed as `ignore_types`: `StrEnum`
membership tests compare underlying strings, so the set is modelled as the
list of the members' string values and `_should_skip` compares the matched
kind's pattern-string value against it. -/
structure LexerConfig where
  source : List Char
  filename : String
  ignoreTypes : List String
  strict : Bool
deriving DecidableEq, Repr

/-- Index of the last occurrence of `c` in `l` (meaningful when `c ∈ l`);
the value of Python `l.rfind(c)` in the branches that guard on membership. -/
def rfindIdx (l : List Char) (c : Char) : Nat :=
  l.length - 1 - (l.reverse.takeWhile (fun x => x != c)).length

/-- lexer.py `_update_location_fast`: location bookkeeping computed from the
matched text only.  Without a newline the column advances by the text length;
otherwise the line advances by the newline count and the column becomes
`len(text) - text.rfind("\n")`. -/
def updateLocationFast (line col : Nat) (text : List Char) : Nat × Nat :=
  if newlineChar ∉ text then (line, col + text.length)
  else (line + text.count newlineChar, text.length - rfindIdx text newlineChar)

/-- Start of the source line containing `pos`:
Python `source.rfind("\n", 0, pos) + 1` (so 0 when there is no earlier
newline). -/
def lineStartOf (s : List Char) (pos : Nat) : Nat :=
  if newlineChar ∈ s.take pos then rfindIdx (s.take pos) newlineChar + 1 else 0

/-- End of the source line containing `pos`: Python `source.find("\n", pos)`
with the `-1 → len(source)` adjustment of `_create_visual_error`. -/
def lineEndOf (s : List Char) (pos : Nat) : Nat :=
  pos + ((s.drop pos).takeWhile (fun c => c != newlineChar)).length

/-- lexer.py `_create_visual_error`: the rich diagnostic built at the current
cursor — offending character, location, filename, the full source line and a
remediation hint. -/
def createVisualError (cfg : LexerConfig) (loc : Loc) : DebugInfo :=
  { offendingText := (cfg.source.drop loc.pos).take 1
    position := loc.pos
    line := loc.line
    column := loc.col
    filename := cfg.filename
    sourceLine := listSub cfg.source (lineStartOf cfg.source loc.pos)
      (lineEndOf cfg.source loc.pos)
    hint := "Check for illegal symbols or encoding issues." }

/-- lexer.py `_intern_if_eligible`: `sys.intern` returns a string equal to
its argument, so interning has no observable effect on the token text; the
eligibility condition is kept to mirror the code. -/
def internIfEligible (text : List Char) (kind : TokenType) : List Char :=
  if TokenType.category kind = TokenCategory.IDENTIFIER ∧
      text.length < internMaxLength then text
  else text

/-- lexer.py `_should_skip`: membership of the matched kind in the configured
`ignore_types` set (string-valued `StrEnum` membership). -/
def shouldSkip (cfg : LexerConfig) (tok : Token) : Bool :=
  cfg.ignoreTypes.contains (TokenType.value tok.type)

/-- lexer.py `_construct_token`: build the token from the matched span
`[loc.pos, e)` and advance the cursor past it. -/
def constructToken (cfg : LexerConfig) (loc : Loc) (t : TokenType) (e : Nat) :
    Token × Loc :=
  let text := listSub cfg.source loc.pos e
  let lc := updateLocationFast loc.line loc.col text
  (⟨t, internIfEligible text t, loc.pos, loc.line, loc.col⟩, ⟨e, lc.1, lc.2⟩)

/-- Outcome of lexer.py `_scan_next_valid_token`, with the cursor at the
moment the function returns or raises (`eof` is `StopIteration`, `err` is the
strict-mode `UnexpectedCharacterError`). -/
inductive ScanResult where
  | tok (t : Token) (loc : Loc) : ScanResult
  | eof (loc : Loc) : ScanResult
  | err (d : DebugInfo) (loc : Loc) : ScanResult
deriving DecidableEq, Repr

/-- The loop of lexer.py `_scan_next_valid_token` with explicit loop fuel:
match at the cursor; on a match construct the token and return it unless its
kind is skipped; on a failed match raise in strict mode or consume one
character and retry in recovery mode; at end of input raise `StopIteration`.
Every iteration strictly advances the cursor, so the fuel used by
`scanNextValidToken` below always suffices and the out-of-fuel value is
unreachable. -/
def scanGo : Nat → LexerConfig → Loc → ScanResult
  | 0, _, loc => .eof loc
  | fuel + 1, cfg, loc =>
      if loc.pos ≥ cfg.source.length then .eof loc
      else
        match firstMatch masterList cfg.source loc.pos with
        | none =>
            if cfg.strict then .err (createVisualError cfg loc) loc
            else
              scanGo fuel cfg
                ⟨loc.pos + 1,
                 (updateLocationFast loc.line loc.col
                   ((cfg.source.drop loc.pos).take 1)).1,
                 (updateLocationFast loc.line loc.col
                   ((cfg.source.drop loc.pos).take 1)).2⟩
        | some (t, e) =>
            if shouldSkip cfg (constructToken cfg loc t e).1 then
              scanGo fuel cfg (constructToken cfg loc t e).2
            else
              .tok (constructToken cfg loc t e).1 (constructToken cfg loc t e).2

/-- lexer.py `_scan_next_valid_token`. -/
def scanNextValidToken (cfg : LexerConfig) (loc : Loc) : ScanResult :=
  scanGo (cfg.source.length + 1 - loc.pos) cfg loc

theorem scanGo_eof (fuel : Nat) (cfg : LexerConfig) (loc : Loc)
    (h : loc.pos ≥ cfg.source.length) : scanGo fuel cfg loc = .eof loc := by
  cases fuel with
  | zero => rw [scanGo]
  | succ fuel => rw [scanGo, if_pos h]

theorem scanGo_succ_err (fuel : Nat) (cfg : LexerConfig) (loc : Loc)
    (h : ¬loc.pos ≥ cfg.source.length)
    (hm : firstMatch masterList cfg.source loc.pos = none)
    (hs : cfg.strict = true) :
    scanGo (fuel + 1) cfg loc = .err (createVisualError cfg loc) loc := by
  rw [scanGo, if_neg h]
  split
  · rw [if_pos hs]
  · rename_i t e heq
    rw [hm] at heq
    exact Option.noConfusion heq

theorem scanGo_succ_recover (fuel : Nat) (cfg : LexerConfig) (loc : Loc)
    (h : ¬loc.pos ≥ cfg.source.length)
    (hm : firstMatch masterList cfg.source loc.pos = none)
    (hs : ¬cfg.strict = true) :
    scanGo (fuel + 1) cfg loc = scanGo fuel cfg
      ⟨loc.pos + 1,
       (updateLocationFast loc.line loc.col ((cfg.source.drop loc.pos).take 1)).1,
       (updateLocationFast loc.line loc.col ((cfg.source.drop loc.pos).take 1)).2⟩ := by
  rw [scanGo, if_neg h]
  split
  · rw [if_neg hs]
  · rename_i t e heq
    rw [hm] at heq
    exact Option.noConfusion heq

theorem scanGo_succ_skip (fuel : Nat) (cfg : LexerConfig) (loc : Loc)
    (h : ¬loc.pos ≥ cfg.source.length) (t : TokenType) (e : Nat)
    (hm : firstMatch masterList cfg.source loc.pos = some (t, e))
    (hskip : shouldSkip cfg (constructToken cfg loc t e).1 = true) :
    scanGo (fuel + 1) cfg loc = scanGo fuel cfg (constructToken cfg loc t e).2 := by
  rw [scanGo, if_neg h]
  split
  · rename_i heq
    rw [hm] at heq
    exact Option.noConfusion heq
  · rename_i t0 e0 heq
    rw [hm] at heq
    injection heq with heq
    injection heq with h1 h2
    subst h1
    subst h2
    rw [if_pos hskip]

theorem scanGo_succ_tok (fuel : Nat) (cfg : LexerConfig) (loc : Loc)
    (h : ¬loc.pos ≥ cfg.source.length) (t : TokenType) (e : Nat)
    (hm : firstMatch masterList cfg.source loc.pos = some (t, e))
    (hskip : ¬shouldSkip cfg (constructToken cfg loc t e).1 = true) :
    scanGo (fuel + 1) cfg loc =
      .tok (constructToken cfg loc t e).1 (constructToken cfg loc t e).2 := by
  rw [scanGo, if_neg h]
  split
  · rename_i heq
    rw [hm] at heq
    exact Option.noConfusion heq
  · rename_i t0 e0 heq
    rw [hm] at heq
    injection heq with heq
    injection heq with h1 h2
    subst h1
    subst h2
    rw [if_neg hskip]

/-- The scan loop stabilizes once the fuel covers the remaining source. -/
theorem scanGo_stable (fuel1 : Nat) :
    ∀ fuel2 cfg loc, cfg.source.length - loc.pos < fuel1 →
      cfg.source.length - loc.pos < fuel2 →
      scanGo fuel1 cfg loc = scanGo fuel2 cfg loc := by
  induction fuel1 with
  | zero =>
    intro fuel2 cfg loc h1 h2
    omega
  | succ fuel1 ih =>
    intro fuel2 cfg loc h1 h2
    by_cases hend : loc.pos ≥ cfg.source.length
    · rw [scanGo_eof _ cfg loc hend, scanGo_eof _ cfg loc hend]
    · obtain ⟨f2, rfl⟩ : ∃ f2, fuel2 = f2 + 1 := by
        rcases fuel2 with - | f2
        · omega
        · exact ⟨f2, rfl⟩
      cases hm : firstMatch masterList cfg.source loc.pos with
      | none =>
        by_cases hs : cfg.strict = true
        · rw [scanGo_succ_err fuel1 cfg loc hend hm hs,
            scanGo_succ_err f2 cfg loc hend hm hs]
        · rw [scanGo_succ_recover fuel1 cfg loc hend hm hs,
            scanGo_succ_recover f2 cfg loc hend hm hs]
          exact ih f2 cfg _ (by simp only []; omega) (by simp only []; omega)
      | some te =>
        obtain ⟨t, e⟩ := te
        have hp := firstMatch_progress cfg.source loc.pos (by omega) t e hm
        have hct : (constructToken cfg loc t e).2.pos = e := rfl
        by_cases hskip : shouldSkip cfg (constructToken cfg loc t e).1 = true
        · rw [scanGo_succ_skip fuel1 cfg loc hend t e hm hskip,
            scanGo_succ_skip f2 cfg loc hend t e hm hskip]
          exact ih f2 cfg _ (by omega) (by omega)
        · rw [scanGo_succ_tok fuel1 cfg loc hend t e hm hskip,
            scanGo_succ_tok f2 cfg loc hend t e hm hskip]

theorem scan_eq_eof (cfg : LexerConfig) (loc : Loc) (h : loc.pos ≥ cfg.source.length) :
    scanNextValidToken cfg loc = .eof loc := by
  rw [scanNextValidToken]
  exact scanGo_eof _ cfg loc h

theorem scan_eq_err (cfg : LexerConfig) (loc : Loc) (h : ¬loc.pos ≥ cfg.source.length)
    (hm : firstMatch masterList cfg.source loc.pos = none) (hs : cfg.strict = true) :
    scanNextValidToken cfg loc = .err (createVisualError cfg loc) loc := by
  obtain ⟨f, hf⟩ : ∃ f, cfg.source.length + 1 - loc.pos = f + 1 :=
    ⟨cfg.source.length - loc.pos, by omega⟩
  rw [scanNextValidToken, hf]
  exact scanGo_succ_err f cfg loc h hm hs

theorem scan_eq_recover (cfg : LexerConfig) (loc : Loc) (h : ¬loc.pos ≥ cfg.source.length)
    (hm : firstMatch masterList cfg.source loc.pos = none) (hs : ¬cfg.strict = true) :
    scanNextValidToken cfg loc = scanNextValidToken cfg
      ⟨loc.pos + 1,
       (updateLocationFast loc.line loc.col ((cfg.source.drop loc.pos).take 1)).1,
       (updateLocationFast loc.line loc.col ((cfg.source.drop loc.pos).take 1)).2⟩ := by
  obtain ⟨f, hf⟩ : ∃ f, cfg.source.length + 1 - loc.pos = f + 1 :=
    ⟨cfg.source.length - loc.pos, by omega⟩
  rw [scanNextValidToken, hf, scanGo_succ_recover f cfg loc h hm hs,
    scanNextValidToken]
  exact scanGo_stable f _ cfg _ (by simp only []; omega) (by simp only []; omega)

theorem scan_eq_skip (cfg : LexerConfig) (loc : Loc) (h : ¬loc.pos ≥ cfg.source.length)
    (t : TokenType) (e : Nat)
    (hm : firstMatch masterList cfg.source loc.pos = some (t, e))
    (hskip : shouldSkip cfg (constructToken cfg loc t e).1 = true) :
    scanNextValidToken cfg loc = scanNextValidToken cfg (constructToken cfg loc t e).2 := by
  obtain ⟨f, hf⟩ : ∃ f, cfg.source.length + 1 - loc.pos = f + 1 :=
    ⟨cfg.source.length - loc.pos, by omega⟩
  have hp := firstMatch_progress cfg.source loc.pos (by omega) t e hm
  have hct : (constructToken cfg loc t e).2.pos = e := rfl
  rw [scanNextValidToken, hf, scanGo_succ_skip f cfg loc h t e hm hskip,
    scanNextValidToken]
  exact scanGo_stable f _ cfg _ (by omega) (by omega)

theorem scan_eq_tok (cfg : LexerConfig) (loc : Loc) (h : ¬loc.pos ≥ cfg.source.length)
    (t : TokenType) (e : Nat)
    (hm : firstMatch masterList cfg.source loc.pos = some (t, e))
    (hskip : ¬shouldSkip cfg (constructToken cfg loc t e).1 = true) :
    scanNextValidToken cfg loc =
      .tok (constructToken cfg loc t e).1 (constructToken cfg loc t e).2 := by
  obtain ⟨f, hf⟩ : ∃ f, cfg.source.length + 1 - loc.pos = f + 1 :=
    ⟨cfg.source.length - loc.pos, by omega⟩
  rw [scanNextValidToken, hf]
  exact scanGo_succ_tok f cfg loc h t e hm hskip

theorem scanGo_tok_pos (fuel : Nat) :
    ∀ cfg loc t l', scanGo fuel cfg loc = .tok t l' →
      loc.pos < l'.pos ∧ l'.pos ≤ cfg.source.length := by
  induction fuel with
  | zero =>
    intro cfg loc t l' hsc
    rw [scanGo] at hsc
    exact ScanResult.noConfusion hsc
  | succ fuel ih =>
    intro cfg loc t l' hsc
    by_cases hend : loc.pos ≥ cfg.source.length
    · rw [scanGo_eof _ cfg loc hend] at hsc
      exact ScanResult.noConfusion hsc
    · cases hm : firstMatch masterList cfg.source loc.pos with
      | none =>
        by_cases hs : cfg.strict = true
        · rw [scanGo_succ_err fuel cfg loc hend hm hs] at hsc
          exact ScanResult.noConfusion hsc
        · rw [scanGo_succ_recover fuel cfg loc hend hm hs] at hsc
          have h1 := ih cfg _ t l' hsc
          simp only [] at h1
          omega
      | some te =>
        obtain ⟨t0, e⟩ := te
        have hp := firstMatch_progress cfg.source loc.pos (by omega) t0 e hm
        have hct : (constructToken cfg loc t0 e).2.pos = e := rfl
        by_cases hskip : shouldSkip cfg (constructToken cfg loc t0 e).1 = true
        · rw [scanGo_succ_skip fuel cfg loc hend t0 e hm hskip] at hsc
          have h1 := ih cfg _ t l' hsc
          omega
        · rw [scanGo_succ_tok fuel cfg loc hend t0 e hm hskip] at hsc
          injection hsc with h1 h2
          subst h2
          omega

/-- A successfully returned token strictly advances the cursor and keeps it
within the source. -/
theorem scan_tok_pos (cfg : LexerConfig) (loc : Loc) :
    ∀ t l', scanNextValidToken cfg loc = .tok t l' →
      loc.pos < l'.pos ∧ l'.pos ≤ cfg.source.length := by
  intro t l' h
  rw [scanNextValidToken] at h
  exact scanGo_tok_pos _ cfg loc t l' h

/-- The mutable per-instance state of a `Lexer`: cursor and the FIFO
lookahead buffer (`_pos/_line/_col/_token_buffer`). -/
structure LexerState where
  loc : Loc
  buffer : List Token
deriving DecidableEq, Repr

/-- The state of a freshly constructed `Lexer`. -/
def initState : LexerState := ⟨startLoc, []⟩

/-- Outcome of one lexer.py `__next__` call: a token, `StopIteration`, or a
strict-mode lexical error. -/
inductive NextResult where
  | tok (t : Token) : NextResult
  | eof : NextResult
  | err (d : DebugInfo) : NextResult
deriving DecidableEq, Repr

/-- lexer.py `__next__`: pop the buffer if non-empty, else scan directly. -/
def nextToken (cfg : LexerConfig) (st : LexerState) : NextResult × LexerState :=
  match st.buffer with
  | t :: ts => (.tok t, ⟨st.loc, ts⟩)
  | [] =>
      match scanNextValidToken cfg st.loc with
      | .tok t l => (.tok t, ⟨l, []⟩)
      | .eof l => (.eof, ⟨l, []⟩)
      | .err d l => (.err d, ⟨l, []⟩)

theorem nextToken_pop (cfg : LexerConfig) (st : LexerState) (t : Token)
    (ts : List Token) (hb : st.buffer = t :: ts) :
    nextToken cfg st = (.tok t, ⟨st.loc, ts⟩) := by
  rw [nextToken, hb]

theorem nextToken_scan_tok (cfg : LexerConfig) (st : LexerState)
    (hb : st.buffer = []) (t : Token) (l : Loc)
    (hs : scanNextValidToken cfg st.loc = .tok t l) :
    nextToken cfg st = (.tok t, ⟨l, []⟩) := by
  rw [nextToken, hb, hs]

theorem nextToken_scan_eof (cfg : LexerConfig) (st : LexerState)
    (hb : st.buffer = []) (l : Loc)
    (hs : scanNextValidToken cfg st.loc = .eof l) :
    nextToken cfg st = (.eof, ⟨l, []⟩) := by
  rw [nextToken, hb, hs]

theorem nextToken_scan_err (cfg : LexerConfig) (st : LexerState)
    (hb : st.buffer = []) (d : DebugInfo) (l : Loc)
    (hs : scanNextValidToken cfg st.loc = .err d l) :
    nextToken cfg st = (.err d, ⟨l, []⟩) := by
  rw [nextToken, hb, hs]

/-- Outcome of one lexer.py `peek` call: the requested token, `None` at end
of input, or a propagated strict-mode error. -/
inductive PeekResult where
  | found (t : Token) : PeekResult
  | noTok : PeekResult
  | err (d : DebugInfo) : PeekResult
deriving DecidableEq, Repr

/-- The fill loop of lexer.py `peek` with explicit fuel: scan and buffer
tokens until the buffer covers `offset`, then return `buffer[offset]`
without consuming it; `None` when the scan raises `StopIteration` first, and
the error (with the partially filled buffer kept) when a strict-mode error
occurs.  Each iteration grows the buffer, so the fuel used by `peek` below
always suffices. -/
def peekGo : Nat → LexerConfig → LexerState → Nat → PeekResult × LexerState
  | 0, _, st, _ => (.noTok, st)
  | fuel + 1, cfg, st, offset =>
      if h : st.buffer.length ≤ offset then
        match scanNextValidToken cfg st.loc with
        | .tok t l => peekGo fuel cfg ⟨l, st.buffer ++ [t]⟩ offset
        | .eof l => (.noTok, ⟨l, st.buffer⟩)
        | .err d l => (.err d, ⟨l, st.buffer⟩)
      else
        (.found (st.buffer.get ⟨offset, by omega⟩), st)

/-- lexer.py `peek`. -/
def peek (cfg : LexerConfig) (st : LexerState) (offset : Nat) :
    PeekResult × LexerState :=
  peekGo ((offset + 1 - st.buffer.length) + 1) cfg st offset

theorem peekGo_succ_found (fuel : Nat) (cfg : LexerConfig) (st : LexerState)
    (offset : Nat) (h : offset < st.buffer.length) :
    peekGo (fuel + 1) cfg st offset =
      (.found (st.buffer.get ⟨offset, h⟩), st) := by
  rw [peekGo, dif_neg (by omega)]

theorem peekGo_succ_tok (fuel : Nat) (cfg : LexerConfig) (st : LexerState)
    (offset : Nat) (h : st.buffer.length ≤ offset) (t : Token) (l : Loc)
    (hs : scanNextValidToken cfg st.loc = .tok t l) :
    peekGo (fuel + 1) cfg st offset =
      peekGo fuel cfg ⟨l, st.buffer ++ [t]⟩ offset := by
  rw [peekGo, dif_pos h, hs]

theorem peekGo_succ_eof (fuel : Nat) (cfg : LexerConfig) (st : LexerState)
    (offset : Nat) (h : st.buffer.length ≤ offset) (l : Loc)
    (hs : scanNextValidToken cfg st.loc = .eof l) :
    peekGo (fuel + 1) cfg st offset = (.noTok, ⟨l, st.buffer⟩) := by
  rw [peekGo, dif_pos h, hs]

theorem peekGo_succ_err (fuel : Nat) (cfg : LexerConfig) (st : LexerState)
    (offset : Nat) (h : st.buffer.length ≤ offset) (d : DebugInfo) (l : Loc)
    (hs : scanNextValidToken cfg st.loc = .err d l) :
    peekGo (fuel + 1) cfg st offset = (.err d, ⟨l, st.buffer⟩) := by
  rw [peekGo, dif_pos h, hs]

/-- The peek fill loop stabilizes once the fuel covers the distance to the
requested offset. -/
theorem peekGo_stable (fuel1 : Nat) :
    ∀ fuel2 cfg st offset, offset + 1 - st.buffer.length < fuel1 →
      offset + 1 - st.buffer.length < fuel2 →
      peekGo fuel1 cfg st offset = peekGo fuel2 cfg st offset := by
  induction fuel1 with
  | zero =>
    intro fuel2 cfg st offset h1 h2
    omega
  | succ fuel1 ih =>
    intro fuel2 cfg st offset h1 h2
    obtain ⟨f2, rfl⟩ : ∃ f2, fuel2 = f2 + 1 := by
      rcases fuel2 with - | f2
      · omega
      · exact ⟨f2, rfl⟩
    by_cases h : st.buffer.length ≤ offset
    · cases hs : scanNextValidToken cfg st.loc with
      | tok t l =>
        rw [peekGo_succ_tok fuel1 cfg st offset h t l hs,
          peekGo_succ_tok f2 cfg st offset h t l hs]
        exact ih f2 cfg _ offset
          (by simp only [List.length_append, List.length_singleton]; omega)
          (by simp only [List.length_append, List.length_singleton]; omega)
      | eof l =>
        rw [peekGo_succ_eof fuel1 cfg st offset h l hs,
          peekGo_succ_eof f2 cfg st offset h l hs]
      | err d l =>
        rw [peekGo_succ_err fuel1 cfg st offset h d l hs,
          peekGo_succ_err f2 cfg st offset h d l hs]
    · rw [peekGo_succ_found fuel1 cfg st offset (by omega),
        peekGo_succ_found f2 cfg st offset (by omega)]

theorem peek_eq_found (cfg : LexerConfig) (st : LexerState) (offset : Nat)
    (h : offset < st.buffer.length) :
    peek cfg st offset = (.found (st.buffer.get ⟨offset, h⟩), st) := by
  rw [peek]
  exact peekGo_succ_found _ cfg st offset h

theorem peek_eq_tok (cfg : LexerConfig) (st : LexerState) (offset : Nat)
    (h : st.buffer.length ≤ offset) (t : Token) (l : Loc)
    (hs : scanNextValidToken cfg st.loc = .tok t l) :
    peek cfg st offset = peek cfg ⟨l, st.buffer ++ [t]⟩ offset := by
  rw [peek, peek]
  rw [peekGo_succ_tok _ cfg st offset h t l hs]
  exact peekGo_stable _ _ cfg _ offset
    (by simp only [List.length_append, List.length_singleton]; omega)
    (by simp only [List.length_append, List.length_singleton]; omega)

theorem peek_eq_eof (cfg : LexerConfig) (st : LexerState) (offset : Nat)
    (h : st.buffer.length ≤ offset) (l : Loc)
    (hs : scanNextValidToken cfg st.loc = .eof l) :
    peek cfg st offset = (.noTok, ⟨l, st.buffer⟩) := by
  rw [peek]
  exact peekGo_succ_eof _ cfg st offset h l hs

theorem peek_eq_err (cfg : LexerConfig) (st : LexerState) (offset : Nat)
    (h : st.buffer.length ≤ offset) (d : DebugInfo) (l : Loc)
    (hs : scanNextValidToken cfg st.loc = .err d l) :
    peek cfg st offset = (.err d, ⟨l, st.buffer⟩) := by
  rw [peek]
  exact peekGo_succ_err _ cfg st offset h d l hs

/-- lexer.py `LexerSnapshot`: immutable capture of cursor and buffer. -/
structure LexerSnapshot where
  pos : Nat
  line : Nat
  col : Nat
  buffer : List Token
deriving DecidableEq, Repr

/-- lexer.py `Lexer.create_snapshot`. -/
def createSnapshot (st : LexerState) : LexerSnapshot :=
  ⟨st.loc.pos, st.loc.line, st.loc.col, st.buffer⟩

/-- lexer.py `Lexer.restore_snapshot`: overwrite the cursor and replace the
buffer contents with the captured ones. -/
def restoreSnapshot (snap : LexerSnapshot) (_st : LexerState) : LexerState :=
  ⟨⟨snap.pos, snap.line, snap.col⟩, snap.buffer⟩

/-- The results of `n` successive `__next__` calls. -/
def nexts (cfg : LexerConfig) (st : LexerState) : Nat → List NextResult
  | 0 => []
  | n + 1 => (nextToken cfg st).1 :: nexts cfg (nextToken cfg st).2 n

/-- Scanning the source to exhaustion from a cursor (no buffer) with
explicit fuel: the produced tokens in order, and how the scan terminated. -/
def drainGo : Nat → LexerConfig → Loc → List Token × NextResult
  | 0, _, _ => ([], .eof)
  | fuel + 1, cfg, loc =>
      match scanNextValidToken cfg loc with
      | .tok t l => (t :: (drainGo fuel cfg l).1, (drainGo fuel cfg l).2)
      | .eof _ => ([], .eof)
      | .err d _ => ([], .err d)

/-- Scanning the source to exhaustion from a cursor (no buffer): the
produced tokens in order, and how the scan terminated. -/
def scanDrain (cfg : LexerConfig) (loc : Loc) : List Token × NextResult :=
  drainGo (cfg.source.length + 1 - loc.pos) cfg loc

theorem drainGo_succ_tok (fuel : Nat) (cfg : LexerConfig) (loc : Loc)
    (t : Token) (l : Loc) (hs : scanNextValidToken cfg loc = .tok t l) :
    drainGo (fuel + 1) cfg loc =
      (t :: (drainGo fuel cfg l).1, (drainGo fuel cfg l).2) := by
  rw [drainGo, hs]

theorem drainGo_succ_eof (fuel : Nat) (cfg : LexerConfig) (loc : Loc)
    (l : Loc) (hs : scanNextValidToken cfg loc = .eof l) :
    drainGo (fuel + 1) cfg loc = ([], .eof) := by
  rw [drainGo, hs]

theorem drainGo_succ_err (fuel : Nat) (cfg : LexerConfig) (loc : Loc)
    (d : DebugInfo) (l : Loc) (hs : scanNextValidToken cfg loc = .err d l) :
    drainGo (fuel + 1) cfg loc = ([], .err d) := by
  rw [drainGo, hs]

/-- The drain loop stabilizes once the fuel covers the remaining source. -/
theorem drainGo_stable (fuel1 : Nat) :
    ∀ fuel2 cfg loc, cfg.source.length - loc.pos < fuel1 →
      cfg.source.length - loc.pos < fuel2 →
      drainGo fuel1 cfg loc = drainGo fuel2 cfg loc := by
  induction fuel1 with
  | zero =>
    intro fuel2 cfg loc h1 h2
    omega
  | succ fuel1 ih =>
    intro fuel2 cfg loc h1 h2
    obtain ⟨f2, rfl⟩ : ∃ f2, fuel2 = f2 + 1 := by
      rcases fuel2 with - | f2
      · omega
      · exact ⟨f2, rfl⟩
    cases hs : scanNextValidToken cfg loc with
    | tok t l =>
      have hp := scan_tok_pos cfg loc t l hs
      rw [drainGo_succ_tok fuel1 cfg loc t l hs,
        drainGo_succ_tok f2 cfg loc t l hs,
        ih f2 cfg l (by omega) (by omega)]
    | eof l =>
      rw [drainGo_succ_eof fuel1 cfg loc l hs, drainGo_succ_eof f2 cfg loc l hs]
    | err d l =>
      rw [drainGo_succ_err fuel1 cfg loc d l hs, drainGo_succ_err f2 cfg loc d l hs]

theorem scanDrain_eq_tok (cfg : LexerConfig) (loc : Loc) (t : Token) (l : Loc)
    (hs : scanNextValidToken cfg loc = .tok t l) :
    scanDrain cfg loc = (t :: (scanDrain cfg l).1, (scanDrain cfg l).2) := by
  have hp := scan_tok_pos cfg loc t l hs
  obtain ⟨f, hf⟩ : ∃ f, cfg.source.length + 1 - loc.pos = f + 1 :=
    ⟨cfg.source.length - loc.pos, by omega⟩
  rw [scanDrain, hf, drainGo_succ_tok f cfg loc t l hs, scanDrain]
  rw [drainGo_stable f (cfg.source.length + 1 - l.pos) cfg l (by omega) (by omega)]

theorem scanDrain_eq_eof (cfg : LexerConfig) (loc : Loc) (l : Loc)
    (hs : scanNextValidToken cfg loc = .eof l) :
    scanDrain cfg loc = ([], .eof) := by
  rcases hf : cfg.source.length + 1 - loc.pos with - | f
  · rw [scanDrain, hf, drainGo]
  · rw [scanDrain, hf, drainGo_succ_eof f cfg loc l hs]

theorem scanDrain_eq_err (cfg : LexerConfig) (loc : Loc) (d : DebugInfo) (l : Loc)
    (hs : scanNextValidToken cfg loc = .err d l) :
    scanDrain cfg loc = ([], .err d) := by
  rcases hf : cfg.source.length + 1 - loc.pos with - | f
  · exfalso
    rw [scanNextValidToken, hf, scanGo] at hs
    exact ScanResult.noConfusion hs
  · rw [scanDrain, hf, drainGo_succ_err f cfg loc d l hs]

/-- Modelled from the spec: the consumer-facing convenience bulk operation
(`Lexer.tokenize`, called by the repository's test suite but absent from the
implementation under src) that "returns the fully materialized ordered
sequence of tokens" of the source, from the initial state. -/
def tokenize (cfg : LexerConfig) : List Token :=
  (scanDrain cfg startLoc).1

/-- Exhausting the pull-based iterator (`__next__` repeatedly) from a state
with explicit fuel: the tokens delivered in order, and the terminal
result. -/
def drainNextGo : Nat → LexerConfig → LexerState → List Token × NextResult
  | 0, _, _ => ([], .eof)
  | fuel + 1, cfg, st =>
      match nextToken cfg st with
      | (.tok t, st') =>
          (t :: (drainNextGo fuel cfg st').1, (drainNextGo fuel cfg st').2)
      | (.eof, _) => ([], .eof)
      | (.err d, _) => ([], .err d)

/-- Exhausting the pull-based iterator (`__next__` repeatedly) from a state:
the tokens delivered in order, and the terminal result. -/
def drainNext (cfg : LexerConfig) (st : LexerState) : List Token × NextResult :=
  drainNextGo (st.buffer.length + (cfg.source.length + 1 - st.loc.pos) + 1) cfg st

theorem drainNextGo_succ_tok (fuel : Nat) (cfg : LexerConfig) (st : LexerState)
    (t : Token) (st' : LexerState) (hn : nextToken cfg st = (.tok t, st')) :
    drainNextGo (fuel + 1) cfg st =
      (t :: (drainNextGo fuel cfg st').1, (drainNextGo fuel cfg st').2) := by
  rw [drainNextGo]
  split
  · rename_i t0 st0 heq
    rw [hn] at heq
    obtain ⟨h1, h2⟩ := Prod.mk.inj heq
    injection h1 with h1
    subst h1
    subst h2
    rfl
  · rename_i st0 heq
    rw [hn] at heq
    exact NextResult.noConfusion (Prod.mk.inj heq).1
  · rename_i d0 st0 heq
    rw [hn] at heq
    exact NextResult.noConfusion (Prod.mk.inj heq).1

theorem drainNextGo_succ_eof (fuel : Nat) (cfg : LexerConfig) (st : LexerState)
    (st' : LexerState) (hn : nextToken cfg st = (.eof, st')) :
    drainNextGo (fuel + 1) cfg st = ([], .eof) := by
  rw [drainNextGo]
  split
  · rename_i t0 st0 heq
    rw [hn] at heq
    exact NextResult.noConfusion (Prod.mk.inj heq).1
  · rfl
  · rename_i d0 st0 heq
    rw [hn] at heq
    exact NextResult.noConfusion (Prod.mk.inj heq).1

theorem drainNextGo_succ_err (fuel : Nat) (cfg : LexerConfig) (st : LexerState)
    (d : DebugInfo) (st' : LexerState) (hn : nextToken cfg st = (.err d, st')) :
    drainNextGo (fuel + 1) cfg st = ([], .err d) := by
  rw [drainNextGo]
  split
  · rename_i t0 st0 heq
    rw [hn] at heq
    exact NextResult.noConfusion (Prod.mk.inj heq).1
  · rename_i st0 heq
    rw [hn] at heq
    exact NextResult.noConfusion (Prod.mk.inj heq).1
  · rename_i d0 st0 heq
    rw [hn] at heq
    obtain ⟨h1, h2⟩ := Prod.mk.inj heq
    injection h1 with h1
    subst h1
    rfl

/-- Exhausting the iterator from a bufferless state is draining the scanner:
the two loops take identical steps. -/
theorem drainNextGo_empty (fuel : Nat) (cfg : LexerConfig) :
    ∀ loc, drainNextGo fuel cfg ⟨loc, []⟩ = drainGo fuel cfg loc := by
  induction fuel with
  | zero =>
    intro loc
    rw [drainNextGo, drainGo]
  | succ fuel ih =>
    intro loc
    cases hs : scanNextValidToken cfg loc with
    | tok t l =>
      rw [drainNextGo_succ_tok fuel cfg ⟨loc, []⟩ t ⟨l, []⟩
          (nextToken_scan_tok cfg ⟨loc, []⟩ rfl t l hs),
        drainGo_succ_tok fuel cfg loc t l hs, ih l]
    | eof l =>
      rw [drainNextGo_succ_eof fuel cfg ⟨loc, []⟩ ⟨l, []⟩
          (nextToken_scan_eof cfg ⟨loc, []⟩ rfl l hs),
        drainGo_succ_eof fuel cfg loc l hs]
    | err d l =>
      rw [drainNextGo_succ_err fuel cfg ⟨loc, []⟩ d ⟨l, []⟩
          (nextToken_scan_err cfg ⟨loc, []⟩ rfl d l hs),
        drainGo_succ_err fuel cfg loc d l hs]

/-- Zero tokens are lost by interning: `sys.intern` returns an equal
string. -/
theorem internIfEligible_eq (text : List Char) (kind : TokenType) :
    internIfEligible text kind = text := by
  unfold internIfEligible
  split <;> rfl

/-- C10: The mapping from token kind to category is a total, deterministic
function (it is a Lean function, evaluated by the name-prefix table build of
tokens.py), the `category` property resolves through it, and no defined kind
falls back to the UNKNOWN runtime category. -/
theorem categoryMap_total (t : TokenType) :
    TokenType.category t = categoryMap t ∧ categoryMap t ≠ TokenCategory.UNKNOWN := by
  refine ⟨rfl, ?_⟩
  cases t <;> decide

/-- C3: The master alternation contains every token kind exactly once;
every literal (metacharacter-free) pattern precedes every non-literal
pattern; the literals are ordered by non-increasing pattern-text length; the
non-literal patterns keep declaration order; and consequently the two-character
relational operators are attempted before their one-character prefixes, each
compound assignment before its single-character arithmetic operator, the
float patterns before the integer pattern, and every keyword pattern before
the generic identifier pattern. -/
theorem masterList_order :
    masterList.Perm TokenType.all ∧
    masterList.Pairwise
      (fun a b => isLiteralPattern b = true → isLiteralPattern a = true) ∧
    (masterList.filter isLiteralPattern).Pairwise
      (fun a b => (TokenType.value b).length ≤ (TokenType.value a).length) ∧
    masterList.filter (fun t => !(isLiteralPattern t)) =
      TokenType.all.filter (fun t => !(isLiteralPattern t)) ∧
    masterList.indexOf TokenType.OPERATOR_RELATIONAL_LOWER_EQUAL <
      masterList.indexOf TokenType.OPERATOR_RELATIONAL_LOWER ∧
    masterList.indexOf TokenType.OPERATOR_RELATIONAL_GREATER_EQUAL <
      masterList.indexOf TokenType.OPERATOR_RELATIONAL_GREATER ∧
    masterList.indexOf TokenType.OPERATOR_RELATIONAL_EQUAL <
      masterList.indexOf TokenType.OPERATOR_ASSIGNMENT ∧
    masterList.indexOf TokenType.OPERATOR_RELATIONAL_NOT_EQUAL <
      masterList.indexOf TokenType.SEPARATOR_EXCLAMATION_POINT ∧
    masterList.indexOf TokenType.OPERATOR_ASSIGNMENT_ADDITION <
      masterList.indexOf TokenType.OPERATOR_ARITHMETIC_ADDITION ∧
    masterList.indexOf TokenType.OPERATOR_ASSIGNMENT_SUBTRACTION <
      masterList.indexOf TokenType.OPERATOR_ARITHMETIC_SUBTRACTION ∧
    masterList.indexOf TokenType.OPERATOR_ASSIGNMENT_MULTIPLICATION <
      masterList.indexOf TokenType.OPERATOR_ARITHMETIC_MULTIPLICATION ∧
    masterList.indexOf TokenType.OPERATOR_ASSIGNMENT_DIVISION <
      masterList.indexOf TokenType.OPERATOR_ARITHMETIC_DIVISION ∧
    masterList.indexOf TokenType.OPERATOR_ASSIGNMENT_MODULO <
      masterList.indexOf TokenType.OPERATOR_ARITHMETIC_MODULO ∧
    masterList.indexOf TokenType.OPERATOR_ASSIGNMENT_EXPONENTIATION <
      masterList.indexOf TokenType.OPERATOR_ARITHMETIC_EXPONENTIATION ∧
    masterList.indexOf TokenType.LITERAL_NUMBER_FLOAT <
      masterList.indexOf TokenType.LITERAL_NUMBER_INTEGER ∧
    (∀ t ∈ TokenType.all, TokenType.category t = TokenCategory.KEYWORD →
      masterList.indexOf t < masterList.indexOf TokenType.IDENTIFIER_IDENTIFIER) := by
  decide

/-- An element failing the `takeWhile` predicate bounds the prefix length. -/
theorem takeWhile_length_lt (l : List Char) (c : Char) (h : c ∈ l) :
    (l.takeWhile (fun x => x != c)).length < l.length := by
  induction l with
  | nil => simp at h
  | cons x xs ih =>
    rw [List.takeWhile]
    cases hx : (x != c) with
    | false => simp
    | true =>
      have hxc : ¬x = c := by simpa using hx
      have hc : c ∈ xs := by
        rcases List.mem_cons.mp h with h1 | h1
        · exact absurd h1.symm hxc
        · exact h1
      simp only [List.length_cons]
      exact Nat.succ_lt_succ (ih hc)

/-- C7: lexer.py `_update_location_fast`, as used by `_construct_token`
(whose post-construction cursor is exactly the update of the matched text):
text without a newline leaves the line unchanged and advances the column by
the text length; text with a newline advances the line by the newline count
and resets the column to 1 plus the number of characters after the last
newline — all computed from the matched substring only. -/
theorem updateLocationFast_spec (line col : Nat) (text : List Char) :
    (newlineChar ∉ text →
      updateLocationFast line col text = (line, col + text.length)) ∧
    (newlineChar ∈ text →
      updateLocationFast line col text =
        (line + text.count newlineChar,
         1 + (text.reverse.takeWhile (fun c => c != newlineChar)).length)) ∧
    (∀ cfg loc t e, (constructToken cfg loc t e).2 =
      ⟨e, (updateLocationFast loc.line loc.col (listSub cfg.source loc.pos e)).1,
          (updateLocationFast loc.line loc.col (listSub cfg.source loc.pos e)).2⟩) := by
  refine ⟨?_, ?_, fun cfg loc t e => rfl⟩
  · intro h
    rw [updateLocationFast, if_pos h]
  · intro h
    rw [updateLocationFast, if_neg (by simpa using h)]
    have hrev : newlineChar ∈ text.reverse := List.mem_reverse.mpr h
    have hlt := takeWhile_length_lt text.reverse newlineChar hrev
    rw [List.length_reverse] at hlt
    rw [rfindIdx]
    have : text.length - (text.length - 1 -
        (text.reverse.takeWhile (fun x => x != newlineChar)).length) =
        1 + (text.reverse.takeWhile (fun x => x != newlineChar)).length := by
      omega
    rw [this]

/-- Restoring the snapshot of a state rebuilds exactly that state, whatever
was done in between. -/
theorem restore_create (st st' : LexerState) :
    restoreSnapshot (createSnapshot st) st' = st := rfl

/-- C2: after any number of calls from any state `st`, capturing a snapshot,
doing arbitrary further work (reaching any state `st'`), and restoring the
snapshot reproduces exactly the `next` result sequence and `peek` results of
an uninterrupted continuation from `st`. -/
theorem snapshot_roundtrip (cfg : LexerConfig) (st st' : LexerState)
    (n k : Nat) :
    nexts cfg (restoreSnapshot (createSnapshot st) st') n = nexts cfg st n ∧
    peek cfg (restoreSnapshot (createSnapshot st) st') k = peek cfg st k := by
  rw [restore_create]
  exact ⟨rfl, rfl⟩

/-- C4: when no pattern matches strictly inside the source, the strict-mode
engine raises `UnexpectedCharacterError` carrying the full `DebugInfo`
(offending character, offset, line, column, filename, full source line,
remediation hint) and the scan halts with that error; in recovery mode the
scan continues at the next offset, with the cursor advanced by exactly the
one offending character (via `_update_location_fast`), no token emitted for
it and nothing else recorded. -/
theorem lexical_error_handling (source : List Char) (fname : String)
    (ign : List String) (loc : Loc) (hpos : loc.pos < source.length)
    (hm : firstMatch masterList source loc.pos = none) :
    (scanNextValidToken ⟨source, fname, ign, true⟩ loc =
        .err (createVisualError ⟨source, fname, ign, true⟩ loc) loc ∧
      createVisualError ⟨source, fname, ign, true⟩ loc =
        ⟨(source.drop loc.pos).take 1, loc.pos, loc.line, loc.col, fname,
         listSub source (lineStartOf source loc.pos) (lineEndOf source loc.pos),
         "Check for illegal symbols or encoding issues."⟩ ∧
      scanDrain ⟨source, fname, ign, true⟩ loc =
        ([], .err (createVisualError ⟨source, fname, ign, true⟩ loc))) ∧
    scanNextValidToken ⟨source, fname, ign, false⟩ loc =
      scanNextValidToken ⟨source, fname, ign, false⟩
        ⟨loc.pos + 1,
         (updateLocationFast loc.line loc.col ((source.drop loc.pos).take 1)).1,
         (updateLocationFast loc.line loc.col ((source.drop loc.pos).take 1)).2⟩ := by
  have hend : ¬loc.pos ≥ (⟨source, fname, ign, true⟩ : LexerConfig).source.length := by
    simp only []
    omega
  refine ⟨⟨scan_eq_err _ loc hend hm rfl, rfl, ?_⟩, ?_⟩
  · exact scanDrain_eq_err _ loc _ loc (scan_eq_err _ loc hend hm rfl)
  · exact scan_eq_recover _ loc hend hm (by simp)

/-- Every token kind is in the declaration-order enumeration. -/
theorem tokenType_mem_all (t : TokenType) : t ∈ TokenType.all := by
  cases t <;> decide

/-- A token returned by the scan loop never has its kind in the skip set. -/
theorem scanGo_tok_not_skipped (fuel : Nat) :
    ∀ cfg loc t l', scanGo fuel cfg loc = .tok t l' → shouldSkip cfg t = false := by
  induction fuel with
  | zero =>
    intro cfg loc t l' hsc
    rw [scanGo] at hsc
    exact ScanResult.noConfusion hsc
  | succ fuel ih =>
    intro cfg loc t l' hsc
    by_cases hend : loc.pos ≥ cfg.source.length
    · rw [scanGo_eof _ cfg loc hend] at hsc
      exact ScanResult.noConfusion hsc
    · cases hm : firstMatch masterList cfg.source loc.pos with
      | none =>
        by_cases hs : cfg.strict = true
        · rw [scanGo_succ_err fuel cfg loc hend hm hs] at hsc
          exact ScanResult.noConfusion hsc
        · rw [scanGo_succ_recover fuel cfg loc hend hm hs] at hsc
          exact ih cfg _ t l' hsc
      | some te =>
        obtain ⟨t0, e⟩ := te
        by_cases hskip : shouldSkip cfg (constructToken cfg loc t0 e).1 = true
        · rw [scanGo_succ_skip fuel cfg loc hend t0 e hm hskip] at hsc
          exact ih cfg _ t l' hsc
        · rw [scanGo_succ_tok fuel cfg loc hend t0 e hm hskip] at hsc
          injection hsc with h1 h2
          subst h1
          exact Bool.of_not_eq_true hskip

/-- A token returned by the scan never has its kind in the skip set. -/
theorem scan_tok_not_skipped (cfg : LexerConfig) (loc : Loc) :
    ∀ t l', scanNextValidToken cfg loc = .tok t l' → shouldSkip cfg t = false := by
  intro t l' h
  rw [scanNextValidToken] at h
  exact scanGo_tok_not_skipped _ cfg loc t l' h

/-- The kinds of WHITESPACE category; their pattern-string values form the
skip set a caller must pass to suppress all whitespace. -/
def whitespaceKinds : List TokenType :=
  TokenType.all.filter (fun t => TokenType.category t = TokenCategory.WHITESPACE)

/-- C5 (amended): during scanning a matched token is silently skipped (the
engine loops without returning it) precisely when the matched kind itself is
in the configured skip set: a match whose kind is in the set makes the scan
continue past it, every returned token's kind is outside the set, and a skip
set holding all WHITESPACE kinds suppresses every whitespace-category
token. -/
theorem skip_iff_kind_in_set (cfg : LexerConfig) (loc : Loc) :
    (∀ t e, ¬loc.pos ≥ cfg.source.length →
      firstMatch masterList cfg.source loc.pos = some (t, e) →
      shouldSkip cfg (constructToken cfg loc t e).1 = true →
      scanNextValidToken cfg loc =
        scanNextValidToken cfg (constructToken cfg loc t e).2) ∧
    (∀ t l', scanNextValidToken cfg loc = .tok t l' →
      cfg.ignoreTypes.contains (TokenType.value t.type) = false) ∧
    (cfg.ignoreTypes = whitespaceKinds.map TokenType.value →
      ∀ t l', scanNextValidToken cfg loc = .tok t l' →
        TokenType.category t.type ≠ TokenCategory.WHITESPACE) := by
  refine ⟨fun t e hend hm hskip => scan_eq_skip cfg loc hend t e hm hskip,
    fun t l' h => scan_tok_not_skipped cfg loc t l' h, ?_⟩
  intro hig t l' h hcat
  have hns := scan_tok_not_skipped cfg loc t l' h
  rw [shouldSkip, hig] at hns
  have hmem : t.type ∈ whitespaceKinds := by
    rw [whitespaceKinds]
    refine List.mem_filter.mpr ⟨tokenType_mem_all t.type, ?_⟩
    simp [hcat]
  have hval : TokenType.value t.type ∈ whitespaceKinds.map TokenType.value :=
    List.mem_map_of_mem _ hmem
  have : (whitespaceKinds.map TokenType.value).contains
      (TokenType.value t.type) = true := by
    simpa using hval
  rw [this] at hns
  exact Bool.noConfusion hns

/-- `StopIteration` is only raised with the cursor at or past the end of the
source. -/
theorem scanGo_eof_spec (fuel : Nat) :
    ∀ cfg loc l, cfg.source.length - loc.pos < fuel →
      scanGo fuel cfg loc = .eof l → l.pos ≥ cfg.source.length := by
  induction fuel with
  | zero =>
    intro cfg loc l h1 h2
    omega
  | succ fuel ih =>
    intro cfg loc l h1 h2
    by_cases hend : loc.pos ≥ cfg.source.length
    · rw [scanGo_eof _ cfg loc hend] at h2
      injection h2 with h2
      subst h2
      exact hend
    · cases hm : firstMatch masterList cfg.source loc.pos with
      | none =>
        by_cases hs : cfg.strict = true
        · rw [scanGo_succ_err fuel cfg loc hend hm hs] at h2
          exact ScanResult.noConfusion h2
        · rw [scanGo_succ_recover fuel cfg loc hend hm hs] at h2
          exact ih cfg _ l (by simp only []; omega) h2
      | some te =>
        obtain ⟨t0, e⟩ := te
        have hp := firstMatch_progress cfg.source loc.pos (by omega) t0 e hm
        have hct : (constructToken cfg loc t0 e).2.pos = e := rfl
        by_cases hskip : shouldSkip cfg (constructToken cfg loc t0 e).1 = true
        · rw [scanGo_succ_skip fuel cfg loc hend t0 e hm hskip] at h2
          exact ih cfg _ l (by omega) h2
        · rw [scanGo_succ_tok fuel cfg loc hend t0 e hm hskip] at h2
          exact ScanResult.noConfusion h2

theorem scan_eof_spec (cfg : LexerConfig) (loc : Loc) (l : Loc)
    (h : scanNextValidToken cfg loc = .eof l) : l.pos ≥ cfg.source.length := by
  by_cases hend : loc.pos ≥ cfg.source.length
  · rw [scan_eq_eof cfg loc hend] at h
    injection h with h
    subst h
    exact hend
  · rw [scanNextValidToken] at h
    exact scanGo_eof_spec _ cfg loc l (by omega) h

/-- A strict-mode error is raised exactly at the reported cursor: the flag is
strict, the cursor is inside the source, no pattern matches there, and the
diagnostic is the visual error built at that cursor. -/
theorem scanGo_err_spec (fuel : Nat) :
    ∀ cfg loc d l, scanGo fuel cfg loc = .err d l →
      cfg.strict = true ∧ ¬l.pos ≥ cfg.source.length ∧
      firstMatch masterList cfg.source l.pos = none ∧
      d = createVisualError cfg l := by
  induction fuel with
  | zero =>
    intro cfg loc d l h
    rw [scanGo] at h
    exact ScanResult.noConfusion h
  | succ fuel ih =>
    intro cfg loc d l h
    by_cases hend : loc.pos ≥ cfg.source.length
    · rw [scanGo_eof _ cfg loc hend] at h
      exact ScanResult.noConfusion h
    · cases hm : firstMatch masterList cfg.source loc.pos with
      | none =>
        by_cases hs : cfg.strict = true
        · rw [scanGo_succ_err fuel cfg loc hend hm hs] at h
          injection h with h1 h2
          subst h2
          exact ⟨hs, hend, hm, h1.symm⟩
        · rw [scanGo_succ_recover fuel cfg loc hend hm hs] at h
          exact ih cfg _ d l h
      | some te =>
        obtain ⟨t0, e⟩ := te
        by_cases hskip : shouldSkip cfg (constructToken cfg loc t0 e).1 = true
        · rw [scanGo_succ_skip fuel cfg loc hend t0 e hm hskip] at h
          exact ih cfg _ d l h
        · rw [scanGo_succ_tok fuel cfg loc hend t0 e hm hskip] at h
          exact ScanResult.noConfusion h

theorem scan_err_spec (cfg : LexerConfig) (loc : Loc) (d : DebugInfo) (l : Loc)
    (h : scanNextValidToken cfg loc = .err d l) :
    cfg.strict = true ∧ ¬l.pos ≥ cfg.source.length ∧
    firstMatch masterList cfg.source l.pos = none ∧
    d = createVisualError cfg l := by
  rw [scanNextValidToken] at h
  exact scanGo_err_spec _ cfg loc d l h

/-- Rescanning from the cursor where `StopIteration` was raised raises it
again. -/
theorem scan_eof_stable (cfg : LexerConfig) (loc : Loc) (l : Loc)
    (h : scanNextValidToken cfg loc = .eof l) :
    scanNextValidToken cfg l = .eof l :=
  scan_eq_eof cfg l (scan_eof_spec cfg loc l h)

/-- Rescanning from the cursor where a strict-mode error was raised raises
the same error. -/
theorem scan_err_stable (cfg : LexerConfig) (loc : Loc) (d : DebugInfo) (l : Loc)
    (h : scanNextValidToken cfg loc = .err d l) :
    scanNextValidToken cfg l = .err d l := by
  obtain ⟨hs, hend, hm, hd⟩ := scan_err_spec cfg loc d l h
  rw [scan_eq_err cfg l hend hm hs, hd]

/-- Moving a token from the scanner into the buffer does not change what the
iterator delivers. -/
theorem nexts_tok_transfer (cfg : LexerConfig) (loc : Loc) (t : Token) (l : Loc)
    (hs : scanNextValidToken cfg loc = .tok t l) :
    ∀ n buf, nexts cfg ⟨loc, buf⟩ n = nexts cfg ⟨l, buf ++ [t]⟩ n := by
  intro n
  induction n with
  | zero =>
    intro buf
    rw [nexts, nexts]
  | succ n ih =>
    intro buf
    cases buf with
    | nil =>
      rw [nexts, nexts,
        nextToken_scan_tok cfg ⟨loc, []⟩ rfl t l hs,
        nextToken_pop cfg ⟨l, [] ++ [t]⟩ t [] rfl]
    | cons b bs =>
      rw [nexts, nexts,
        nextToken_pop cfg ⟨loc, b :: bs⟩ b bs rfl,
        nextToken_pop cfg ⟨l, (b :: bs) ++ [t]⟩ b (bs ++ [t]) rfl]
      exact congrArg _ (ih bs)

/-- Recording the end-of-input cursor does not change what the iterator
delivers. -/
theorem nexts_eof_transfer (cfg : LexerConfig) (loc : Loc) (l : Loc)
    (hs : scanNextValidToken cfg loc = .eof l) :
    ∀ n buf, nexts cfg ⟨loc, buf⟩ n = nexts cfg ⟨l, buf⟩ n := by
  intro n
  induction n with
  | zero =>
    intro buf
    rw [nexts, nexts]
  | succ n ih =>
    intro buf
    cases buf with
    | nil =>
      rw [nexts, nexts,
        nextToken_scan_eof cfg ⟨loc, []⟩ rfl l hs,
        nextToken_scan_eof cfg ⟨l, []⟩ rfl l (scan_eof_stable cfg loc l hs)]
    | cons b bs =>
      rw [nexts, nexts,
        nextToken_pop cfg ⟨loc, b :: bs⟩ b bs rfl,
        nextToken_pop cfg ⟨l, b :: bs⟩ b bs rfl]
      exact congrArg _ (ih bs)

/-- Recording the error cursor does not change what the iterator
delivers. -/
theorem nexts_err_transfer (cfg : LexerConfig) (loc : Loc) (d : DebugInfo) (l : Loc)
    (hs : scanNextValidToken cfg loc = .err d l) :
    ∀ n buf, nexts cfg ⟨loc, buf⟩ n = nexts cfg ⟨l, buf⟩ n := by
  intro n
  induction n with
  | zero =>
    intro buf
    rw [nexts, nexts]
  | succ n ih =>
    intro buf
    cases buf with
    | nil =>
      rw [nexts, nexts,
        nextToken_scan_err cfg ⟨loc, []⟩ rfl d l hs,
        nextToken_scan_err cfg ⟨l, []⟩ rfl d l (scan_err_stable cfg loc d l hs)]
    | cons b bs =>
      rw [nexts, nexts,
        nextToken_pop cfg ⟨loc, b :: bs⟩ b bs rfl,
        nextToken_pop cfg ⟨l, b :: bs⟩ b bs rfl]
      exact congrArg _ (ih bs)

/-- While the buffer covers the requested pulls, the iterator just pops
buffered tokens. -/
theorem nexts_take_buffer (cfg : LexerConfig) :
    ∀ n st, n ≤ st.buffer.length →
      nexts cfg st n = (st.buffer.take n).map NextResult.tok := by
  intro n
  induction n with
  | zero =>
    intro st h
    rw [nexts]
    simp
  | succ n ih =>
    intro st h
    rcases hb : st.buffer with - | ⟨b, bs⟩
    · rw [hb] at h
      simp at h
    · rw [nexts, nextToken_pop cfg st b bs hb]
      simp only [List.take_succ_cons, List.map_cons]
      exact congrArg _ (ih ⟨st.loc, bs⟩ (by rw [hb] at h; simpa using h))

/-- Pulling past the buffer first delivers every buffered token, then
continues from the cursor with the buffer empty. -/
theorem nexts_buffer_split (cfg : LexerConfig) :
    ∀ buf loc n, nexts cfg ⟨loc, buf⟩ (buf.length + n) =
      buf.map NextResult.tok ++ nexts cfg ⟨loc, []⟩ n := by
  intro buf
  induction buf with
  | nil =>
    intro loc n
    simp
  | cons b bs ih =>
    intro loc n
    have hlen : (b :: bs).length + n = (bs.length + n) + 1 := by
      simp only [List.length_cons]
      omega
    rw [hlen, nexts, nextToken_pop cfg ⟨loc, b :: bs⟩ b bs rfl]
    simp only [List.map_cons, List.cons_append]
    exact congrArg _ (ih loc n)

/-- After a strict-mode error, every further pull re-raises the same
error. -/
theorem nexts_err_all (cfg : LexerConfig) :
    ∀ n loc d l, scanNextValidToken cfg loc = .err d l →
      nexts cfg ⟨loc, []⟩ n = List.replicate n (.err d) := by
  intro n
  induction n with
  | zero =>
    intro loc d l h
    rw [nexts]
    rfl
  | succ n ih =>
    intro loc d l h
    rw [nexts, nextToken_scan_err cfg ⟨loc, []⟩ rfl d l h, List.replicate_succ]
    exact congrArg _ (ih l d l (scan_err_stable cfg loc d l h))

theorem shouldSkip_noskip (cfg : LexerConfig) (hig : cfg.ignoreTypes = [])
    (tok : Token) : shouldSkip cfg tok = false := by
  rw [shouldSkip, hig]
  rfl

/-- In strict mode with an empty skip set the scan loop runs exactly one
iteration: it returns end-of-input at or past the end of the source, an
error on a failed match, and the constructed token of the winning kind
otherwise. -/
theorem scan_strict_noskip_tok (cfg : LexerConfig) (hig : cfg.ignoreTypes = [])
    (hs : cfg.strict = true) (loc : Loc) (t : Token) (l' : Loc)
    (h : scanNextValidToken cfg loc = .tok t l') :
    ¬loc.pos ≥ cfg.source.length ∧
    ∃ e, firstMatch masterList cfg.source loc.pos = some (t.type, e) ∧
      t = (constructToken cfg loc t.type e).1 ∧
      l' = (constructToken cfg loc t.type e).2 := by
  by_cases hend : loc.pos ≥ cfg.source.length
  · rw [scan_eq_eof cfg loc hend] at h
    exact ScanResult.noConfusion h
  · refine ⟨hend, ?_⟩
    cases hm : firstMatch masterList cfg.source loc.pos with
    | none =>
      rw [scan_eq_err cfg loc hend hm hs] at h
      exact ScanResult.noConfusion h
    | some te =>
      obtain ⟨t0, e⟩ := te
      have hns : ¬shouldSkip cfg (constructToken cfg loc t0 e).1 = true := by
        rw [shouldSkip_noskip cfg hig]
        exact Bool.false_ne_true
      rw [scan_eq_tok cfg loc hend t0 e hm hns] at h
      injection h with h1 h2
      subst h1
      subst h2
      have hty : (constructToken cfg loc t0 e).1.type = t0 := rfl
      refine ⟨e, ?_, ?_, ?_⟩
      · rw [hty]
      · rw [hty]
      · rw [hty]

theorem scan_strict_noskip_eof (cfg : LexerConfig) (hig : cfg.ignoreTypes = [])
    (hs : cfg.strict = true) (loc : Loc) (l : Loc)
    (h : scanNextValidToken cfg loc = .eof l) : loc.pos ≥ cfg.source.length := by
  by_cases hend : loc.pos ≥ cfg.source.length
  · exact hend
  · exfalso
    cases hm : firstMatch masterList cfg.source loc.pos with
    | none =>
      rw [scan_eq_err cfg loc hend hm hs] at h
      exact ScanResult.noConfusion h
    | some te =>
      obtain ⟨t0, e⟩ := te
      have hns : ¬shouldSkip cfg (constructToken cfg loc t0 e).1 = true := by
        rw [shouldSkip_noskip cfg hig]
        exact Bool.false_ne_true
      rw [scan_eq_tok cfg loc hend t0 e hm hns] at h
      exact ScanResult.noConfusion h

/-- A slice glued back onto the rest of the source. -/
theorem listSub_cons_drop (s : List Char) (i j : Nat) (hij : i ≤ j)
    (hj : j ≤ s.length) : listSub s i j ++ s.drop j = s.drop i := by
  rw [listSub]
  have h1 : s.drop j = (s.drop i).drop (j - i) := by
    rw [List.drop_drop]
    congr 1
    omega
  rw [h1, List.take_append_drop]

/-- Draining a strict, skip-free scan to a clean end concatenates the token
texts into exactly the untouched remainder of the source. -/
theorem scanDrain_concat (cfg : LexerConfig) (hig : cfg.ignoreTypes = [])
    (hs : cfg.strict = true) :
    ∀ n loc, cfg.source.length - loc.pos ≤ n →
      ∀ ts, scanDrain cfg loc = (ts, .eof) →
        (ts.map Token.text).flatten = cfg.source.drop loc.pos := by
  intro n
  induction n with
  | zero =>
    intro loc hn ts hd
    have hend : loc.pos ≥ cfg.source.length := by omega
    rw [scanDrain_eq_eof cfg loc loc (scan_eq_eof cfg loc hend)] at hd
    obtain ⟨h1, -⟩ := Prod.mk.inj hd
    subst h1
    simp only [List.map_nil, List.flatten_nil]
    exact (List.drop_eq_nil_of_le hend).symm
  | succ n ih =>
    intro loc hn ts hd
    cases hsc : scanNextValidToken cfg loc with
    | tok t l =>
      obtain ⟨hend, e, hm, ht, hl⟩ := scan_strict_noskip_tok cfg hig hs loc t l hsc
      have hp := firstMatch_progress cfg.source loc.pos (by omega) t.type e hm
      rw [scanDrain_eq_tok cfg loc t l hsc] at hd
      obtain ⟨h1, h2⟩ := Prod.mk.inj hd
      subst h1
      have hlpos : l.pos = e := by
        rw [hl]
        rfl
      have htext : t.text = listSub cfg.source loc.pos e := by
        rw [ht]
        exact internIfEligible_eq _ _
      have hrec := ih l (by omega) (scanDrain cfg l).1 (by rw [← h2])
      simp only [List.map_cons, List.flatten_cons]
      rw [hrec, htext, hlpos]
      exact listSub_cons_drop cfg.source loc.pos e (by omega) (by omega)
    | eof l =>
      have hend := scan_strict_noskip_eof cfg hig hs loc l hsc
      rw [scanDrain_eq_eof cfg loc l hsc] at hd
      obtain ⟨h1, -⟩ := Prod.mk.inj hd
      subst h1
      simp only [List.map_nil, List.flatten_nil]
      exact (List.drop_eq_nil_of_le hend).symm
    | err d l =>
      rw [scanDrain_eq_err cfg loc d l hsc] at hd
      exact NextResult.noConfusion (Prod.mk.inj hd).2

/-- C1: for every source on which a strict lexer with an empty skip set
completes a full scan without error, the concatenation of the emitted
tokens' texts, in order, is exactly the source text. -/
theorem lex_roundtrip (source : List Char) (fname : String) (ts : List Token)
    (h : scanDrain ⟨source, fname, [], true⟩ startLoc = (ts, .eof)) :
    (ts.map Token.text).flatten = source := by
  have hc := scanDrain_concat ⟨source, fname, [], true⟩ rfl rfl
    source.length startLoc (by simp [startLoc]) ts h
  simpa [startLoc] using hc

/-- C6: the bulk operation materializes exactly the token sequence obtained
by exhausting the pull-based iterator from the initial state. -/
theorem tokenize_eq_drain (cfg : LexerConfig) :
    tokenize cfg = (drainNext cfg initState).1 := by
  rw [tokenize, scanDrain, drainNext]
  have h1 : initState = (⟨startLoc, []⟩ : LexerState) := rfl
  rw [h1, drainNextGo_empty]
  have h0 : startLoc.pos = 0 := rfl
  have h2 : (⟨startLoc, []⟩ : LexerState).buffer.length = 0 := rfl
  have h3 : (⟨startLoc, []⟩ : LexerState).loc.pos = 0 := rfl
  exact congrArg Prod.fst
    (drainGo_stable _ _ cfg startLoc (by omega) (by rw [h2, h3]; omega))

/-- When the buffer already covers the requested offset, `peek` answers from
the buffer and is a no-op on the state. -/
theorem peek_props_found (cfg : LexerConfig) (st : LexerState) (k : Nat)
    (h : k < st.buffer.length) (r : PeekResult) (s1 : LexerState)
    (hp : peek cfg st k = (r, s1)) :
    peek cfg s1 k = (r, s1) ∧
    s1.buffer.length ≤ max st.buffer.length (k + 1) ∧
    (∀ n, nexts cfg s1 n = nexts cfg st n) ∧
    (r = .noTok ↔ .eof ∈ nexts cfg st (k + 1)) := by
  rw [peek_eq_found cfg st k h] at hp
  obtain ⟨h1, h2⟩ := Prod.mk.inj hp
  subst h2
  refine ⟨?_, le_max_left _ _, fun n => rfl, ?_⟩
  · rw [peek_eq_found cfg st k h, h1]
  · constructor
    · intro hr
      rw [← h1] at hr
      exact PeekResult.noConfusion hr
    · intro hin
      exfalso
      rw [nexts_take_buffer cfg (k + 1) st (by omega)] at hin
      simp only [List.mem_map] at hin
      obtain ⟨t0, -, ht⟩ := hin
      exact NextResult.noConfusion ht

/-- The full `peek` contract, by induction on the distance from the buffer
length to the requested offset: `peek` at offset `k` is idempotent, buffers
at most `k + 1` tokens, leaves the stream of future `__next__` results
unchanged, and answers `None` exactly when `StopIteration` occurs within the
next `k + 1` pulls. -/
theorem peek_props (cfg : LexerConfig) :
    ∀ μ st k, k + 1 - st.buffer.length ≤ μ →
      ∀ r s1, peek cfg st k = (r, s1) →
        peek cfg s1 k = (r, s1) ∧
        s1.buffer.length ≤ max st.buffer.length (k + 1) ∧
        (∀ n, nexts cfg s1 n = nexts cfg st n) ∧
        (r = .noTok ↔ .eof ∈ nexts cfg st (k + 1)) := by
  intro μ
  induction μ with
  | zero =>
    intro st k hμ r s1 hp
    exact peek_props_found cfg st k (by omega) r s1 hp
  | succ μ ih =>
    intro st k hμ r s1 hp
    by_cases h : st.buffer.length ≤ k
    · cases hs : scanNextValidToken cfg st.loc with
      | tok t l =>
        rw [peek_eq_tok cfg st k h t l hs] at hp
        have hlen : (⟨l, st.buffer ++ [t]⟩ : LexerState).buffer.length =
            st.buffer.length + 1 := by
          simp
        obtain ⟨hidem, hbound, hnext, hiff⟩ :=
          ih ⟨l, st.buffer ++ [t]⟩ k (by omega) r s1 hp
        have he : nexts cfg st (k + 1) =
            nexts cfg (⟨l, st.buffer ++ [t]⟩ : LexerState) (k + 1) :=
          nexts_tok_transfer cfg st.loc t l hs (k + 1) st.buffer
        refine ⟨hidem, by omega, ?_, ?_⟩
        · intro n
          exact (hnext n).trans
            (nexts_tok_transfer cfg st.loc t l hs n st.buffer).symm
        · rw [he]
          exact hiff
      | eof l =>
        rw [peek_eq_eof cfg st k h l hs] at hp
        obtain ⟨h1, h2⟩ := Prod.mk.inj hp
        have hmem : NextResult.eof ∈
            nexts cfg (⟨st.loc, []⟩ : LexerState) ((k - st.buffer.length) + 1) := by
          rw [nexts, nextToken_scan_eof cfg ⟨st.loc, []⟩ rfl l hs]
          exact List.mem_cons_self _ _
        have hsplit : nexts cfg st (st.buffer.length + ((k - st.buffer.length) + 1)) =
            st.buffer.map NextResult.tok ++
              nexts cfg (⟨st.loc, []⟩ : LexerState) ((k - st.buffer.length) + 1) :=
          nexts_buffer_split cfg st.buffer st.loc ((k - st.buffer.length) + 1)
        have hin : NextResult.eof ∈ nexts cfg st (k + 1) := by
          have hk : k + 1 = st.buffer.length + ((k - st.buffer.length) + 1) := by
            omega
          rw [hk, hsplit]
          exact List.mem_append_right _ hmem
        subst h2
        refine ⟨?_, le_max_left _ _, ?_, iff_of_true h1.symm hin⟩
        · rw [peek_eq_eof cfg ⟨l, st.buffer⟩ k h l (scan_eof_stable cfg st.loc l hs), h1]
        · intro n
          exact (nexts_eof_transfer cfg st.loc l hs n st.buffer).symm
      | err d l =>
        rw [peek_eq_err cfg st k h d l hs] at hp
        obtain ⟨h1, h2⟩ := Prod.mk.inj hp
        subst h2
        refine ⟨?_, le_max_left _ _, ?_, ?_⟩
        · rw [peek_eq_err cfg ⟨l, st.buffer⟩ k h d l (scan_err_stable cfg st.loc d l hs), h1]
        · intro n
          exact (nexts_err_transfer cfg st.loc d l hs n st.buffer).symm
        · constructor
          · intro hr
            rw [← h1] at hr
            exact PeekResult.noConfusion hr
          · intro hin
            exfalso
            have hsplit : nexts cfg st (st.buffer.length + ((k - st.buffer.length) + 1)) =
                st.buffer.map NextResult.tok ++
                  nexts cfg (⟨st.loc, []⟩ : LexerState) ((k - st.buffer.length) + 1) :=
              nexts_buffer_split cfg st.buffer st.loc ((k - st.buffer.length) + 1)
            have hk : k + 1 = st.buffer.length + ((k - st.buffer.length) + 1) := by
              omega
            rw [hk, hsplit] at hin
            rcases List.mem_append.1 hin with hL | hR
            · simp only [List.mem_map] at hL
              obtain ⟨t0, -, ht⟩ := hL
              exact NextResult.noConfusion ht
            · rw [nexts_err_all cfg _ st.loc d l hs] at hR
              exact NextResult.noConfusion (List.eq_of_mem_replicate hR)
    · exact peek_props_found cfg st k (by omega) r s1 hp

/-- C9: Calling `peek` with the same offset `k` repeatedly, with no
intervening `__next__` call, returns the same result each time and leaves
the state fixed after the first call, so the cursor does not advance: every
future sequence of `__next__` results is unchanged.  Beyond the one-time
buffering the buffer holds at most `max` of its previous length and `k + 1`
tokens, and `peek` returns `None` exactly when `StopIteration` occurs within
the next `k + 1` pulls, i.e. when fewer than `k + 1` tokens remain. -/
theorem peek_contract (cfg : LexerConfig) (st : LexerState) (k : Nat)
    (r : PeekResult) (s1 : LexerState) (hp : peek cfg st k = (r, s1)) :
    peek cfg s1 k = (r, s1) ∧
    s1.buffer.length ≤ max st.buffer.length (k + 1) ∧
    (∀ n, nexts cfg s1 n = nexts cfg st n) ∧
    (r = .noTok ↔ .eof ∈ nexts cfg st (k + 1)) :=
  peek_props cfg (k + 1) st k (by omega) r s1 hp

/-- The `peek` contract instantiated on the one-character source `+` at
offset `0`. -/
theorem peek_contract_witness :
    peek (⟨['+'], "w", [], true⟩ : LexerConfig)
        ⟨⟨1, 1, 2⟩, [⟨.OPERATOR_ARITHMETIC_ADDITION, ['+'], 0, 1, 1⟩]⟩ 0 =
      (.found ⟨.OPERATOR_ARITHMETIC_ADDITION, ['+'], 0, 1, 1⟩,
        ⟨⟨1, 1, 2⟩, [⟨.OPERATOR_ARITHMETIC_ADDITION, ['+'], 0, 1, 1⟩]⟩) ∧
    (⟨⟨1, 1, 2⟩,
        [⟨.OPERATOR_ARITHMETIC_ADDITION, ['+'], 0, 1, 1⟩]⟩ : LexerState).buffer.length ≤
      max (initState.buffer.length) 1 ∧
    (∀ n, nexts ⟨['+'], "w", [], true⟩
        ⟨⟨1, 1, 2⟩, [⟨.OPERATOR_ARITHMETIC_ADDITION, ['+'], 0, 1, 1⟩]⟩ n =
      nexts ⟨['+'], "w", [], true⟩ initState n) ∧
    ((PeekResult.found ⟨.OPERATOR_ARITHMETIC_ADDITION, ['+'], 0, 1, 1⟩) = .noTok ↔
      .eof ∈ nexts ⟨['+'], "w", [], true⟩ initState 1) :=
  peek_contract ⟨['+'], "w", [], true⟩ initState 0
    (.found ⟨.OPERATOR_ARITHMETIC_ADDITION, ['+'], 0, 1, 1⟩)
    ⟨⟨1, 1, 2⟩, [⟨.OPERATOR_ARITHMETIC_ADDITION, ['+'], 0, 1, 1⟩]⟩ (by decide)

/-- A whole list is the slice of itself from `0` to its length. -/
theorem listSub_zero_length (u : List Char) : listSub u 0 u.length = u := by
  simp [listSub]

theorem chars_nil : chars [] = Regex.eps := rfl

theorem chars_cons (c : Char) (w : List Char) :
    chars (c :: w) = Regex.seq (.char c) (chars w) := rfl

/-- On the context-free fragment, a matched span re-matches its own text as
a full match when the pattern is re-run on the extracted text alone. -/
theorem ends_refull_cf (r : Regex) (s : List Char) (p e : Nat)
    (hcf : Regex.contextFree r = true) (hp : p ≤ e) (he : e ≤ s.length)
    (h : e ∈ Regex.ends r s p) :
    (listSub s p e).length ∈ Regex.ends r (listSub s p e) 0 := by
  have hm := Regex.matches_of_mem_ends r s p hcf e h
  have h2 := Regex.mem_ends_of_matches hm (listSub s p e) 0 hcf
    (by rw [Nat.zero_add]; exact listSub_zero_length _) (by omega)
  simpa using h2

/-- A literal-text pattern matches exactly its own word. -/
theorem ends_chars (w : List Char) :
    ∀ s i j, j ∈ Regex.ends (chars w) s i →
      j = i + w.length ∧ listSub s i j = w := by
  induction w with
  | nil =>
    intro s i j hj
    rw [chars_nil, Regex.ends] at hj
    simp only [List.mem_singleton] at hj
    refine ⟨by rw [hj]; simp, by rw [hj]; exact listSub_self s i⟩
  | cons c w ih =>
    intro s i j hj
    rw [chars_cons, Regex.ends] at hj
    simp only [List.mem_flatMap] at hj
    obtain ⟨m, hm, hj⟩ := hj
    rw [Regex.ends] at hm
    rcases Nat.lt_or_ge i s.length with hi | hi
    · rw [dif_pos hi] at hm
      by_cases hc : s.get ⟨i, hi⟩ = c
      · rw [if_pos hc] at hm
        simp only [List.mem_singleton] at hm
        subst hm
        obtain ⟨hj1, hj2⟩ := ih s (i + 1) j hj
        refine ⟨by simp only [List.length_cons]; omega, ?_⟩
        have hs1 : listSub s i (i + 1) = [c] := by
          rw [listSub_single s i hi, hc]
        have happ := listSub_append s i (i + 1) j (by omega) (by omega)
        rw [← happ, hs1, hj2]
        rfl
      · rw [if_neg hc] at hm
        exact absurd hm (List.not_mem_nil m)
    · rw [dif_neg (by omega)] at hm
      exact absurd hm (List.not_mem_nil m)

/-- A word-boundary assertion consumes nothing. -/
theorem ends_wordB (s : List Char) (i j : Nat)
    (h : j ∈ Regex.ends Regex.wordB s i) : j = i := by
  rw [Regex.ends] at h
  by_cases hb : Regex.atWordBoundary s i
  · rw [if_pos hb] at h
    simpa using h
  · rw [if_neg hb] at h
    exact absurd h (List.not_mem_nil j)

/-- An end-of-input assertion consumes nothing. -/
theorem ends_eos_eq (s : List Char) (i j : Nat)
    (h : j ∈ Regex.ends Regex.eos s i) : j = i := by
  rw [Regex.ends] at h
  by_cases hb : Regex.atEos s i
  · rw [if_pos hb] at h
    simpa using h
  · rw [if_neg hb] at h
    exact absurd h (List.not_mem_nil j)

/-- A keyword pattern matches exactly its own word. -/
theorem ends_kw (w : List Char) (s : List Char) (p e : Nat)
    (h : e ∈ Regex.ends (kw w) s p) :
    e = p + w.length ∧ listSub s p e = w := by
  rw [kw, Regex.ends] at h
  simp only [List.mem_flatMap] at h
  obtain ⟨m, hm, h⟩ := h
  have hm1 := ends_wordB s p m hm
  rw [hm1] at h
  rw [Regex.ends] at h
  simp only [List.mem_flatMap] at h
  obtain ⟨m2, hm2, h⟩ := h
  obtain ⟨hm2e, hm2s⟩ := ends_chars w s p m2 hm2
  have he := ends_wordB s m2 e h
  constructor
  · omega
  · rw [he, hm2s]

/-- Every token-kind pattern satisfies the re-match transport property: a
span it matches inside any source re-matches, as a full match, when the
pattern is re-run against the extracted text alone.  Context-free patterns
use soundness plus completeness of the matcher; keyword patterns match
exactly their own word, which full-matches itself; the `$` pattern matches
the empty text, which full-matches. -/
theorem pattern_refull (k : TokenType) (s : List Char) (p e : Nat)
    (hp : p ≤ s.length) (h : e ∈ Regex.ends (TokenType.pattern k) s p) :
    (listSub s p e).length ∈ Regex.ends (TokenType.pattern k) (listSub s p e) 0 := by
  have hge := Regex.ends_ge (TokenType.pattern k) s p e h
  have hle' := Regex.ends_le (TokenType.pattern k) s p e h
  have hle : e ≤ s.length := by omega
  cases k
  all_goals first
  | exact ends_refull_cf _ s p e rfl hge hle h
  | (obtain ⟨he, hsub⟩ := ends_kw _ s p e h
     rw [hsub]
     decide)
  | (have h2 : e ∈ Regex.ends Regex.eos s p := h
     have he := ends_eos_eq s p e h2
     subst he
     rw [listSub_self]
     decide)

/-- The `Token` invariant of tokens.py: re-matching the token's `text`
against its own kind's pattern succeeds as a full match (the whole text is a
candidate match end of the pattern run on the text alone). -/
def TokenOK (t : Token) : Prop :=
  t.text.length ∈ Regex.ends (TokenType.pattern t.type) t.text 0

/-- Every token built by `_construct_token` from a master-pattern match
satisfies the `Token` invariant, interning included (`_intern_if_eligible`
returns its argument). -/
theorem constructToken_ok (cfg : LexerConfig) (loc : Loc) (t0 : TokenType)
    (e : Nat) (hp : loc.pos ≤ cfg.source.length)
    (hm : firstMatch masterList cfg.source loc.pos = some (t0, e)) :
    TokenOK (constructToken cfg loc t0 e).1 := by
  obtain ⟨-, hmem⟩ := firstMatch_mem masterList cfg.source loc.pos t0 e hm
  have hr := pattern_refull t0 cfg.source loc.pos e hp hmem
  have htext : (constructToken cfg loc t0 e).1.text =
      listSub cfg.source loc.pos e := by
    have h0 : (constructToken cfg loc t0 e).1.text =
        internIfEligible (listSub cfg.source loc.pos e) t0 := rfl
    rw [h0, internIfEligible_eq]
  have htype : (constructToken cfg loc t0 e).1.type = t0 := rfl
  rw [TokenOK, htext, htype]
  exact hr

/-- Every token returned by the scan loop satisfies the `Token`
invariant. -/
theorem scanGo_tok_ok (fuel : Nat) :
    ∀ cfg loc t l, scanGo fuel cfg loc = .tok t l → TokenOK t := by
  induction fuel with
  | zero =>
    intro cfg loc t l h
    rw [scanGo] at h
    exact ScanResult.noConfusion h
  | succ fuel ih =>
    intro cfg loc t l h
    by_cases hend : loc.pos ≥ cfg.source.length
    · rw [scanGo_eof _ cfg loc hend] at h
      exact ScanResult.noConfusion h
    · cases hm : firstMatch masterList cfg.source loc.pos with
      | none =>
        by_cases hs : cfg.strict = true
        · rw [scanGo_succ_err fuel cfg loc hend hm hs] at h
          exact ScanResult.noConfusion h
        · rw [scanGo_succ_recover fuel cfg loc hend hm hs] at h
          exact ih cfg _ t l h
      | some te =>
        obtain ⟨t0, e⟩ := te
        by_cases hskip : shouldSkip cfg (constructToken cfg loc t0 e).1 = true
        · rw [scanGo_succ_skip fuel cfg loc hend t0 e hm hskip] at h
          exact ih cfg _ t l h
        · rw [scanGo_succ_tok fuel cfg loc hend t0 e hm hskip] at h
          injection h with h1 h2
          rw [← h1]
          exact constructToken_ok cfg loc t0 e (by omega) hm

theorem scan_tok_ok (cfg : LexerConfig) (loc : Loc) (t : Token) (l : Loc)
    (h : scanNextValidToken cfg loc = .tok t l) : TokenOK t := by
  rw [scanNextValidToken] at h
  exact scanGo_tok_ok _ cfg loc t l h

/-- A lexer state is good when every buffered token satisfies the `Token`
invariant; every reachable state is good. -/
def GoodState (st : LexerState) : Prop :=
  ∀ t ∈ st.buffer, TokenOK t

/-- `__next__` preserves goodness and only delivers invariant-satisfying
tokens. -/
theorem nextToken_good (cfg : LexerConfig) (st : LexerState)
    (hg : GoodState st) :
    GoodState (nextToken cfg st).2 ∧
    ∀ t, (nextToken cfg st).1 = .tok t → TokenOK t := by
  rcases hb : st.buffer with - | ⟨b, bs⟩
  · cases hs : scanNextValidToken cfg st.loc with
    | tok t l =>
      rw [nextToken_scan_tok cfg st hb t l hs]
      refine ⟨fun x hx => absurd hx (List.not_mem_nil x), ?_⟩
      intro x hx
      have h2 : NextResult.tok t = NextResult.tok x := hx
      injection h2 with h1
      rw [← h1]
      exact scan_tok_ok cfg st.loc t l hs
    | eof l =>
      rw [nextToken_scan_eof cfg st hb l hs]
      exact ⟨fun x hx => absurd hx (List.not_mem_nil x),
        fun x hx => NextResult.noConfusion hx⟩
    | err d l =>
      rw [nextToken_scan_err cfg st hb d l hs]
      exact ⟨fun x hx => absurd hx (List.not_mem_nil x),
        fun x hx => NextResult.noConfusion hx⟩
  · rw [nextToken_pop cfg st b bs hb]
    refine ⟨?_, ?_⟩
    · intro x hx
      exact hg x (by rw [hb]; exact List.mem_cons_of_mem b hx)
    · intro x hx
      have h2 : NextResult.tok b = NextResult.tok x := hx
      injection h2 with h1
      rw [← h1]
      exact hg b (by rw [hb]; exact List.mem_cons_self b bs)

/-- The `peek` fill loop preserves goodness and only delivers
invariant-satisfying tokens. -/
theorem peekGo_good (fuel : Nat) :
    ∀ cfg st k, GoodState st →
      GoodState (peekGo fuel cfg st k).2 ∧
      ∀ t, (peekGo fuel cfg st k).1 = .found t → TokenOK t := by
  induction fuel with
  | zero =>
    intro cfg st k hg
    rw [peekGo]
    exact ⟨hg, fun t ht => PeekResult.noConfusion ht⟩
  | succ fuel ih =>
    intro cfg st k hg
    by_cases h : st.buffer.length ≤ k
    · cases hs : scanNextValidToken cfg st.loc with
      | tok t l =>
        rw [peekGo_succ_tok fuel cfg st k h t l hs]
        refine ih cfg ⟨l, st.buffer ++ [t]⟩ k ?_
        intro x hx
        rcases List.mem_append.mp hx with hx | hx
        · exact hg x hx
        · simp only [List.mem_singleton] at hx
          rw [hx]
          exact scan_tok_ok cfg st.loc t l hs
      | eof l =>
        rw [peekGo_succ_eof fuel cfg st k h l hs]
        exact ⟨fun x hx => hg x hx, fun x hx => PeekResult.noConfusion hx⟩
      | err d l =>
        rw [peekGo_succ_err fuel cfg st k h d l hs]
        exact ⟨fun x hx => hg x hx, fun x hx => PeekResult.noConfusion hx⟩
    · rw [peekGo_succ_found fuel cfg st k (by omega)]
      refine ⟨hg, ?_⟩
      intro x hx
      have h2 : PeekResult.found (st.buffer.get ⟨k, by omega⟩) =
          PeekResult.found x := hx
      injection h2 with h1
      rw [← h1]
      exact hg _ (st.buffer.get_mem _ _)

theorem peek_good (cfg : LexerConfig) (st : LexerState) (k : Nat)
    (hg : GoodState st) :
    GoodState (peek cfg st k).2 ∧
    ∀ t, (peek cfg st k).1 = .found t → TokenOK t := by
  rw [peek]
  exact peekGo_good _ cfg st k hg

/-- C8: Every token emitted by the engine — delivered by `__next__` or
reported by `peek` — satisfies the `Token` invariant: re-matching the
token's `text` field against its own kind's pattern succeeds as a full
match, including when the text was interned (interning returns an equal
text).  Formally: the freshly constructed lexer state is good (all buffered
tokens satisfy the invariant), and from any good state, `__next__` and
`peek` (at every offset) deliver only invariant-satisfying tokens and leave
a good state, so the invariant holds along every use of the engine for
every source text and configuration. -/
theorem token_invariant (cfg : LexerConfig) (st : LexerState)
    (hg : GoodState st) :
    GoodState initState ∧
    (∀ t, (nextToken cfg st).1 = .tok t → TokenOK t) ∧
    GoodState (nextToken cfg st).2 ∧
    (∀ k t, (peek cfg st k).1 = .found t → TokenOK t) ∧
    (∀ k, GoodState (peek cfg st k).2) := by
  obtain ⟨h1, h2⟩ := nextToken_good cfg st hg
  refine ⟨fun t ht => absurd ht (List.not_mem_nil t), h2, h1, ?_, ?_⟩
  · intro k t ht
    exact (peek_good cfg st k hg).2 t ht
  · intro k
    exact (peek_good cfg st k hg).1

/-- The token invariant instantiated on the one-character source `*` from
the freshly constructed state. -/
theorem token_invariant_witness :
    GoodState initState ∧
    (∀ t, (nextToken ⟨['*'], "w", [], true⟩ initState).1 = .tok t → TokenOK t) ∧
    GoodState (nextToken ⟨['*'], "w", [], true⟩ initState).2 ∧
    (∀ k t, (peek ⟨['*'], "w", [], true⟩ initState k).1 = .found t → TokenOK t) ∧
    (∀ k, GoodState (peek ⟨['*'], "w", [], true⟩ initState k).2) :=
  token_invariant ⟨['*'], "w", [], true⟩ initState
    (fun t ht => absurd ht (List.not_mem_nil t))

/-- The round-trip instantiated on the one-character source `+`. -/
theorem lex_roundtrip_witness :
    (([⟨.OPERATOR_ARITHMETIC_ADDITION, ['+'], 0, 1, 1⟩] : List Token).map
      Token.text).flatten = ['+'] :=
  lex_roundtrip ['+'] "w" [⟨.OPERATOR_ARITHMETIC_ADDITION, ['+'], 0, 1, 1⟩]
    (by decide)

/-- The lexical-error behaviour instantiated on the unmatched one-character
source `#`. -/
theorem lexical_error_handling_witness :
    (scanNextValidToken ⟨['#'], "w", [], true⟩ startLoc =
        .err (createVisualError ⟨['#'], "w", [], true⟩ startLoc) startLoc ∧
      createVisualError ⟨['#'], "w", [], true⟩ startLoc =
        ⟨((['#'] : List Char).drop startLoc.pos).take 1, startLoc.pos,
         startLoc.line, startLoc.col, "w",
         listSub ['#'] (lineStartOf ['#'] startLoc.pos)
           (lineEndOf ['#'] startLoc.pos),
         "Check for illegal symbols or encoding issues."⟩ ∧
      scanDrain ⟨['#'], "w", [], true⟩ startLoc =
        ([], .err (createVisualError ⟨['#'], "w", [], true⟩ startLoc))) ∧
    scanNextValidToken ⟨['#'], "w", [], false⟩ startLoc =
      scanNextValidToken ⟨['#'], "w", [], false⟩
        ⟨startLoc.pos + 1,
         (updateLocationFast startLoc.line startLoc.col
           (((['#'] : List Char).drop startLoc.pos).take 1)).1,
         (updateLocationFast startLoc.line startLoc.col
           (((['#'] : List Char).drop startLoc.pos).take 1)).2⟩ :=
  lexical_error_handling ['#'] "w" [] startLoc (by decide) (by decide)

/-- Counterexample to the original wording of the skip rule: the skip set is
keyed by kind, not category.  With the WHITESPACE *category* value in the
skip set, the space token — whose kind's category is WHITESPACE — is still
returned by the scan rather than skipped. -/
theorem skip_by_category_counterexample :
    TokenType.category TokenType.WHITESPACE_SPACE = TokenCategory.WHITESPACE ∧
    scanNextValidToken
        ⟨[' '], "w", [TokenCategory.value TokenCategory.WHITESPACE], true⟩
        startLoc =
      .tok ⟨.WHITESPACE_SPACE, [' '], 0, 1, 1⟩ ⟨1, 1, 2⟩ := by
  decide

/-- The kind-keyed skip rule instantiated on the source consisting of a
space then `+`, with the space kind's value in the skip set: the returned
token's kind is outside the set. -/
theorem skip_iff_kind_in_set_witness :
    (⟨[' ', '+'], "w", [" "], true⟩ : LexerConfig).ignoreTypes.contains
      (TokenType.value
        (⟨.OPERATOR_ARITHMETIC_ADDITION, ['+'], 1, 1, 2⟩ : Token).type) =
      false :=
  (skip_iff_kind_in_set ⟨[' ', '+'], "w", [" "], true⟩ startLoc).2.1
    ⟨.OPERATOR_ARITHMETIC_ADDITION, ['+'], 1, 1, 2⟩ ⟨2, 1, 3⟩ (by decide)

/-- The location update instantiated on newline-free text and on text with
an embedded newline. -/
theorem updateLocationFast_spec_witness :
    updateLocationFast 1 1 ['a', 'b'] =
      (1, 1 + (['a', 'b'] : List Char).length) ∧
    updateLocationFast 5 7 ['a', newlineChar, 'b'] =
      (5 + (['a', newlineChar, 'b'] : List Char).count newlineChar,
       1 + ((['a', newlineChar, 'b'] : List Char).reverse.takeWhile
         (fun c => c != newlineChar)).length) :=
  ⟨(updateLocationFast_spec 1 1 ['a', 'b']).1 (by decide),
   (updateLocationFast_spec 5 7 ['a', newlineChar, 'b']).2.1 (by decide)⟩

end Kiwi